import Mathlib

/-!
# todo-golang: the `TodoList` manager of `main.go`

A shallow embedding of the task list of `src/main.go` (types `Priority`, `Task`,
`TodoList` and the methods `AddTask`, `ListTasks`, `MarkComplete`, `DeleteTask`,
`FilterTasks`, plus the `/api/tasks/` HTTP handler) and the properties of it that
the specification states.

Modelling conventions.

* A Go slice `[]Task` is a `List Task`; a method with a pointer receiver takes the
  list state and returns the new one (explicit state passing).
* Go's `int` is modelled by `Int`.  The only arithmetic on it is `ID + 1` in
  `AddTask`, which does not leave the range of a 64-bit `int` in fewer than `2 ^ 63`
  calls (`reachable_ID_bounds`); the values `strconv.Atoi` can produce are limited to
  that range explicitly (`intMin`, `intMax`).
* A Go `string` is a `String` (valid UTF-8), and a `List Char` where the handler
  takes it apart.
* The `error` result of `MarkComplete` and `DeleteTask` is an `Option String`, `none`
  for Go's `nil`; `SaveTasks` and `LoadTasks` return an `Except Failure`.
* A `time.Time` is modelled by the instant it denotes (seconds since
  1970-01-01T00:00:00Z and nanoseconds), which is all that `Time.Before` reads for
  the due dates of this program (they come from `time.Parse` or from the JSON file
  and carry no monotonic clock reading); its JSON text is that of a UTC time.
* `sort.Slice`, `strconv.Atoi` and `strings.Split` are library functions; they are
  modelled by `sortSlice`, `Atoi` and `List.splitOn`.
* `SaveTasks` and `LoadTasks` are modelled over an explicit file system.  What
  `encoding/json` writes and reads is modelled from the specification and the
  documentation of the library, at the level of JSON values: the file holds the
  text of a JSON value, and the RFC 3339 text of a due date is spelled out.  In the
  handler `SaveTasks` does not change the list and its error is dropped.
-/

namespace TodoGolang

/-! ## Data model (main.go, lines 17-40) -/

/-- Go: `type Priority string`. -/
abbrev Priority := String

/-- Go: `Low Priority = "low"`. -/
def Low : Priority := "low"

/-- Go: `Medium Priority = "medium"`. -/
def Medium : Priority := "medium"

/-- Go: `High Priority = "high"`. -/
def High : Priority := "high"

/-- The instant of a `time.Time`: whole seconds since 1970-01-01T00:00:00Z and the
nanoseconds within the second. -/
structure Time where
  sec : Int
  nsec : Nat
deriving DecidableEq, Repr, Inhabited

/-- Go: `func (t Time) Before(u Time) bool` on wall-clock instants:
`ts < us || ts == us && t.nsec() < u.nsec()`. -/
def Time.Before (t u : Time) : Bool :=
  decide (t.sec < u.sec) || (decide (t.sec = u.sec) && decide (t.nsec < u.nsec))

/-- Go: `type Task struct`. -/
structure Task where
  ID : Int
  Description : String
  DueDate : Time
  Priority : TodoGolang.Priority
  Completed : Bool
deriving DecidableEq, Repr, Inhabited

/-- Go: `type TodoList struct { Tasks []Task; File string }`. -/
structure TodoList where
  Tasks : List Task
  File : String
deriving DecidableEq, Repr

/-- Go: `NewTodoList(filename)`; the `Tasks` slice starts out nil (empty). -/
def NewTodoList (filename : String) : TodoList :=
  ⟨[], filename⟩

/-! ## AddTask (main.go, lines 61-76) -/

/-- The ID `AddTask` picks: `1`, or `t.Tasks[len(t.Tasks)-1].ID + 1` when the list
is not empty. -/
def nextID (tasks : List Task) : Int :=
  if h : 0 < tasks.length then
    (tasks.get ⟨tasks.length - 1, by omega⟩).ID + 1
  else
    1

/-- Go: `func (t *TodoList) AddTask(description, dueDate, priority)`. -/
def AddTask (t : TodoList) (description : String) (dueDate : Time)
    (priority : Priority) : TodoList :=
  let id := nextID t.Tasks
  let task : Task := ⟨id, description, dueDate, priority, false⟩
  ⟨t.Tasks ++ [task], t.File⟩

/-! ## MarkComplete and DeleteTask (main.go, lines 112-130) -/

/-- The scan `for i := range t.Tasks { if t.Tasks[i].ID == id { ... return } }`
shared by `MarkComplete` and `DeleteTask`: the index of the first task whose ID
is `id`, counting from `i` for the head of the remaining tasks; `none` when the
loop runs to its end. -/
def scanID (id : Int) : List Task → Nat → Option Nat
  | [], _ => none
  | task :: rest, i => if task.ID = id then some i else scanID id rest (i + 1)

/-- Go: `fmt.Errorf("task with ID %d not found", id)`. -/
def notFoundError (id : Int) : String :=
  "task with ID " ++ toString id ++ " not found"

/-- The assignment `t.Tasks[i].Completed = true`. -/
def setCompleted (task : Task) : Task :=
  ⟨task.ID, task.Description, task.DueDate, task.Priority, true⟩

/-- Go: `func (t *TodoList) MarkComplete(id int) error`. -/
def MarkComplete (t : TodoList) (id : Int) : TodoList × Option String :=
  match scanID id t.Tasks 0 with
  | some i => (⟨t.Tasks.set i (setCompleted (t.Tasks.getD i default)), t.File⟩, none)
  | none => (t, some (notFoundError id))

/-- Go: `func (t *TodoList) DeleteTask(id int) error`, with
`t.Tasks = append(t.Tasks[:i], t.Tasks[i+1:]...)`. -/
def DeleteTask (t : TodoList) (id : Int) : TodoList × Option String :=
  match scanID id t.Tasks 0 with
  | some i => (⟨t.Tasks.take i ++ t.Tasks.drop (i + 1), t.File⟩, none)
  | none => (t, some (notFoundError id))

/-! ## FilterTasks (main.go, lines 132-141) -/

/-- The condition of the `if` in `FilterTasks`:
`(priority == "" || task.Priority == priority) &&
 (completed == nil || task.Completed == *completed)`. -/
def filterCond (priority : Priority) (completed : Option Bool) (task : Task) : Bool :=
  (priority == "" || task.Priority == priority) &&
    (match completed with
     | none => true
     | some c => task.Completed == c)

/-- The loop of `FilterTasks`: `filtered` is the slice built so far, each matching
task is appended to it. -/
def FilterTasks.loop (priority : Priority) (completed : Option Bool) :
    List Task → List Task → List Task
  | [], filtered => filtered
  | task :: rest, filtered =>
    if filterCond priority completed task then
      FilterTasks.loop priority completed rest (filtered ++ [task])
    else
      FilterTasks.loop priority completed rest filtered

/-- Go: `func (t *TodoList) FilterTasks(priority Priority, completed *bool) []Task`. -/
def FilterTasks (t : TodoList) (priority : Priority) (completed : Option Bool) : List Task :=
  FilterTasks.loop priority completed t.Tasks []

/-! ## ListTasks (main.go, lines 78-110) -/

/-- The inner loop of insertion sort, `for j := i; j > a && less(data[j], data[j-1]); j--`
with a swap in its body: the new element `x` moves left past every element it is
less than.  The sorted part is held in reverse, so `y` is the left neighbour. -/
def insertLeft {α : Type} (less : α → α → Bool) (x : α) : List α → List α
  | [] => [x]
  | y :: ys => if less x y then y :: insertLeft less x ys else x :: y :: ys

/-- Go: `sort.Slice(data, less)`, the library's comparison sort (not stable).  It is
modelled by insertion sort, the library's own routine for short slices: the elements
are taken from left to right and each is moved left into the sorted part. -/
def sortSlice {α : Type} (less : α → α → Bool) (data : List α) : List α :=
  (data.foldl (fun sorted x => insertLeft less x sorted) []).reverse

/-- Go: `pMap := map[Priority]int{High: 3, Medium: 2, Low: 1}` read at a key; a key
that is not in the map reads as `0`. -/
def pMap (p : Priority) : Int :=
  if p = High then 3 else if p = Medium then 2 else if p = Low then 1 else 0

/-- The `less` closure of the case `"date"`:
`tasks[i].DueDate.Before(tasks[j].DueDate)`. -/
def lessDate (a b : Task) : Bool :=
  a.DueDate.Before b.DueDate

/-- The `less` closure of the case `"priority"`:
`pMap[tasks[i].Priority] > pMap[tasks[j].Priority]`. -/
def lessPriority (a b : Task) : Bool :=
  decide (pMap a.Priority > pMap b.Priority)

/-- Go: `func (t *TodoList) ListTasks(sortBy string)`.  The result is the list state
after the call and the tasks printed, in the order printed (none when the list is
empty: only the line `No tasks found.` is printed). -/
def ListTasks (t : TodoList) (sortBy : String) : TodoList × List Task :=
  if t.Tasks.length = 0 then
    (t, [])
  else
    let tasks := t.Tasks
    let tasks :=
      if sortBy = "date" then sortSlice lessDate tasks
      else if sortBy = "priority" then sortSlice lessPriority tasks
      else tasks
    (t, tasks)

/-! ## The `/api/tasks/` handler (main.go, lines 193-235) -/

/-- Least value of Go's `int` (64 bits). -/
def intMin : Int := -(2 ^ 63)

/-- Greatest value of Go's `int` (64 bits). -/
def intMax : Int := 2 ^ 63 - 1

/-- The value of a string of decimal digits, most significant first. -/
def digitsValue (ds : List Char) : Nat :=
  ds.foldl (fun n c => 10 * n + (c.toNat - 48)) 0

/-- Go: `strconv.Atoi(s)`, reduced to whether it fails (`none`) and the value when it
does not: an optional sign, then one or more decimal digits and nothing else, and
the value has to fit an `int`. -/
def Atoi (s : List Char) : Option Int :=
  let neg : Bool := s.head? == some '-'
  let body : List Char :=
    match s with
    | '-' :: rest => rest
    | '+' :: rest => rest
    | _ => s
  if body.isEmpty || !body.all Char.isDigit then
    none
  else
    let v : Int := if neg then -(digitsValue body : Int) else (digitsValue body : Int)
    if intMin ≤ v ∧ v ≤ intMax then some v else none

/-- The decimal digits of a natural number, most significant first; `0` is written
with the one digit `0`. -/
def natDecimal (m : Nat) : List Char :=
  if m = 0 then [ '0' ] else (Nat.digits 10 m).reverse.map Nat.digitChar

/-- Go: `strconv.Itoa(n)`, the decimal text of an integer as it stands in a URL such
as `/api/tasks/12`. -/
def Itoa (n : Int) : List Char :=
  if n < 0 then '-' :: natDecimal n.natAbs else natDecimal n.natAbs

/-- The part of an `*http.Request` the handler reads. -/
structure Request where
  Method : String
  Path : List Char
deriving DecidableEq, Repr

/-- The handler registered for `/api/tasks/`: the list state after the request and
the status code answered.  `todoList.SaveTasks()` after a successful change writes
the file and its error is dropped; it leaves `t.Tasks` as it is. -/
def tasksHandler (t : TodoList) (r : Request) : TodoList × Nat :=
  let pathParts := r.Path.splitOn '/'
  if pathParts.length < 4 then
    (t, 400)
  else
    match Atoi (pathParts.getD 3 []) with
    | none => (t, 400)
    | some taskID =>
      if "/complete".toList.isSuffixOf r.Path then
        if r.Method = "POST" then
          match MarkComplete t taskID with
          | (t1, some _) => (t1, 404)
          | (t1, none) => (t1, 204)
        else
          (t, 405)
      else if r.Method = "DELETE" then
        match DeleteTask t taskID with
        | (t1, some _) => (t1, 404)
        | (t1, none) => (t1, 204)
      else
        (t, 405)

/-- The path `/api/tasks/n/complete` of the request that completes task `n`. -/
def completePath (n : Int) : List Char :=
  "/api/tasks/".toList ++ Itoa n ++ "/complete".toList

/-- The path `/api/tasks/n` of the request that deletes task `n`. -/
def deletePath (n : Int) : List Char :=
  "/api/tasks/".toList ++ Itoa n

/-! ## SaveTasks and LoadTasks (main.go, lines 42-59)

`SaveTasks` and `LoadTasks` are code of the repository; `encoding/json`, the JSON
text of a `time.Time` and the file system are not.  They are modelled from the
specification (section 6: the file is a JSON array of Task objects with the fields
`id`, `description`, `due_date` as an RFC 3339 timestamp, `priority`, `completed`;
sections 4.1 and 7: a missing file is an empty list, malformed JSON and I/O failures
are errors) and from the documentation of the library. -/

/-- A date of the proleptic Gregorian calendar. -/
structure Civil where
  year : Int
  month : Int
  day : Int
deriving DecidableEq, Repr

/-- Whether a year has a 29th of February. -/
def isLeap (year : Int) : Bool :=
  year % 4 == 0 && (year % 100 != 0 || year % 400 == 0)

/-- The number of days of a month of a year. -/
def daysIn (month year : Int) : Int :=
  if month = 2 then (if isLeap year then 29 else 28)
  else if month = 4 ∨ month = 6 ∨ month = 9 ∨ month = 11 then 30
  else 31

/-- The date of a day given by its number counted from 0000-03-01: whole cycles of
400, 100, 4 and 1 years (of 146097, 36524, 1461 and 365 days, the year running from
March to February), then the month and the day within the year. -/
def civilFromDays (z : Int) : Civil :=
  let n400 := z / 146097
  let d1 := z % 146097
  let n100 := if d1 / 36524 < 3 then d1 / 36524 else 3
  let d2 := d1 - 36524 * n100
  let n4 := d2 / 1461
  let d3 := d2 % 1461
  let n1 := if d3 / 365 < 3 then d3 / 365 else 3
  let doy := d3 - 365 * n1
  let mp := (5 * doy + 2) / 153
  let d := doy - (153 * mp + 2) / 5 + 1
  let m := if mp < 10 then mp + 3 else mp - 9
  let y := 400 * n400 + 100 * n100 + 4 * n4 + n1
  ⟨if m ≤ 2 then y + 1 else y, m, d⟩

/-- The number of a day, counted from 0000-03-01, given by its date. -/
def daysFromCivil (c : Civil) : Int :=
  let y := if c.month ≤ 2 then c.year - 1 else c.year
  let mp := if c.month > 2 then c.month - 3 else c.month + 9
  365 * y + y / 4 - y / 100 + y / 400 + (153 * mp + 2) / 5 + c.day - 1

/-- The number of 1970-01-01, the day of second 0 of a `Time`, counted from
0000-03-01. -/
def epochDay : Int := 719468

/-- The date of a `Time` in UTC. -/
def Time.civil (t : Time) : Civil :=
  civilFromDays (t.sec / 86400 + epochDay)

/-- Go: `func (t Time) Year() int`, in UTC. -/
def Time.Year (t : Time) : Int :=
  t.civil.year

/-- The second of the day of a `Time` in UTC. -/
def Time.secondOfDay (t : Time) : Nat :=
  (t.sec % 86400).toNat

/-- Two decimal digits. -/
def pad2 (n : Nat) : List Char :=
  [Nat.digitChar (n / 10 % 10), Nat.digitChar (n % 10)]

/-- Four decimal digits. -/
def pad4 (n : Nat) : List Char :=
  [Nat.digitChar (n / 1000 % 10), Nat.digitChar (n / 100 % 10), Nat.digitChar (n / 10 % 10),
    Nat.digitChar (n % 10)]

/-- Nine decimal digits. -/
def pad9 (n : Nat) : List Char :=
  [Nat.digitChar (n / 100000000 % 10), Nat.digitChar (n / 10000000 % 10),
    Nat.digitChar (n / 1000000 % 10), Nat.digitChar (n / 100000 % 10),
    Nat.digitChar (n / 10000 % 10), Nat.digitChar (n / 1000 % 10),
    Nat.digitChar (n / 100 % 10), Nat.digitChar (n / 10 % 10), Nat.digitChar (n % 10)]

/-- A string of digits without the zeros at its end. -/
def trimZeros : List Char → List Char
  | [] => []
  | c :: cs =>
    match trimZeros cs with
    | [] => if c = '0' then [] else [c]
    | rest => c :: rest

/-- The fraction of a second in RFC 3339 text with sub-second precision: nothing
for no nanoseconds, otherwise a period and the nine digits of the nanoseconds
without the zeros at their end. -/
def formatNano (nsec : Nat) : List Char :=
  if nsec = 0 then [] else '.' :: trimZeros (pad9 nsec)

/-- Modelled from the spec: `due_date` is an RFC 3339 timestamp.  This is the text
`Time.MarshalJSON` puts between the quotes, `YYYY-MM-DDThh:mm:ss[.fraction]Z` for
a UTC time; as documented, a year outside [0, 9999] cannot be written and is an
error (`none`). -/
def formatRFC3339 (t : Time) : Option (List Char) :=
  let c := t.civil
  if c.year < 0 ∨ 9999 < c.year then
    none
  else
    let s := t.secondOfDay
    some (pad4 c.year.toNat ++ '-' :: pad2 c.month.toNat ++ '-' :: pad2 c.day.toNat ++
      'T' :: pad2 (s / 3600) ++ ':' :: pad2 (s % 3600 / 60) ++ ':' :: pad2 (s % 60) ++
      formatNano t.nsec ++ [ 'Z' ])

/-- A field of an RFC 3339 text: decimal digits only, with a value from `min` to
`max`. -/
def parseUint (cs : List Char) (min max : Nat) : Option Nat :=
  if cs.all Char.isDigit ∧ min ≤ digitsValue cs ∧ digitsValue cs ≤ max then
    some (digitsValue cs)
  else
    none

/-- The nanoseconds given by the digits of a fraction of a second; digits after the
ninth do not count. -/
def parseNano (ds : List Char) : Nat :=
  digitsValue (ds.take 9) * 10 ^ (9 - (ds.take 9).length)

/-- The offset from UTC, in seconds, at the end of an RFC 3339 text: `Z`, or a sign,
two digits of hours (0 to 23), a colon and two digits of minutes (0 to 59). -/
def parseZone : List Char → Option Int
  | [c] => if c = 'Z' then some 0 else none
  | [sign, h1, h2, colon, m1, m2] =>
    match parseUint [h1, h2] 0 23, parseUint [m1, m2] 0 59 with
    | some hr, some mm =>
      if colon = ':' then
        if sign = '+' then some (((hr * 60 + mm) * 60 : Nat) : Int)
        else if sign = '-' then some (-(((hr * 60 + mm) * 60 : Nat) : Int))
        else none
      else none
    | _, _ => none
  | _ => none

/-- What follows the seconds in an RFC 3339 text: a period and digits if there is a
fraction of a second, then the offset from UTC.  The result is the nanoseconds and
the offset in seconds. -/
def parseTail (rest : List Char) : Option (Nat × Int) :=
  let fraction : List Char :=
    match rest with
    | '.' :: more => more.takeWhile Char.isDigit
    | _ => []
  let nsec : Nat := if fraction.isEmpty then 0 else parseNano fraction
  let zone : List Char := if fraction.isEmpty then rest else rest.drop (fraction.length + 1)
  match parseZone zone with
  | some offset => some (nsec, offset)
  | none => none

/-- Modelled from the spec: `due_date` is an RFC 3339 timestamp.  This is the reading
of the text between the quotes by `Time.UnmarshalJSON`, which documents that it must
be in the RFC 3339 format: date, `T`, time of day, an optional fraction of a second
and `Z` or an offset from UTC; every field has its range, the day that of its month.
The result is the instant the text denotes.  (The library also reads some texts
outside the format, such as an hour of one digit; `formatRFC3339` writes none of
them.) -/
def parseRFC3339 : List Char → Option Time
  | y1 :: y2 :: y3 :: y4 :: s1 :: m1 :: m2 :: s2 :: d1 :: d2 :: s3 :: h1 :: h2 :: s4 ::
      n1 :: n2 :: s5 :: c1 :: c2 :: rest =>
    match parseUint [y1, y2, y3, y4] 0 9999, parseUint [m1, m2] 1 12 with
    | some year, some month =>
      match parseUint [d1, d2] 1 (daysIn month year).toNat, parseUint [h1, h2] 0 23,
        parseUint [n1, n2] 0 59, parseUint [c1, c2] 0 59, parseTail rest with
      | some day, some hour, some min, some sec, some (nsec, offset) =>
        if s1 = '-' ∧ s2 = '-' ∧ s3 = 'T' ∧ s4 = ':' ∧ s5 = ':' then
          some ⟨(daysFromCivil ⟨year, month, day⟩ - epochDay) * 86400 +
            ((hour * 3600 + min * 60 + sec : Nat) : Int) - offset, nsec⟩
        else none
      | _, _, _, _, _ => none
    | _, _ => none
  | _ => none

/-- Modelled from the spec: the file is JSON.  A JSON value as `encoding/json`
distinguishes them: `number` is a number written as an integer, `fraction` any
number written with a fraction or an exponent (no integer field takes it). -/
inductive JSON where
  | null
  | bool (b : Bool)
  | number (n : Int)
  | fraction
  | string (s : String)
  | array (elems : List JSON)
  | object (members : List (String × JSON))

/-- Modelled from the spec: the bytes of a file, as far as `encoding/json` tells them
apart: the text of a JSON value (indentation and escapes do not count), or bytes
that are not the text of any. -/
inductive FileData where
  | document (value : JSON)
  | malformed

/-- The ways `SaveTasks` and `LoadTasks` fail. -/
inductive Failure where
  | notExist
  | readRefused
  | writeRefused
  | marshalTime
  | badText
  | badType
  | badTime
deriving DecidableEq, Repr

/-- Modelled from the spec: the file system the program runs on: the file at a path,
if there is one, and the paths at which the system refuses a write or a read
(permissions, a directory in the way, a full disk). -/
structure Disk where
  file : String → Option FileData
  refuseWrite : String → Bool
  refuseRead : String → Bool

/-- Modelled from the spec: `ioutil.WriteFile(name, data, 0644)`: the file at `name`
holds `data` afterwards, unless the system refuses the write. -/
def WriteFile (d : Disk) (name : String) (data : FileData) : Except Failure Disk :=
  if d.refuseWrite name then
    Except.error Failure.writeRefused
  else
    Except.ok ⟨fun path => if path = name then some data else d.file path,
      d.refuseWrite, d.refuseRead⟩

/-- Modelled from the spec: `ioutil.ReadFile(name)`: the data of the file at `name`;
an error for which `os.IsNotExist` holds when there is no file, another error when
the system refuses the read. -/
def ReadFile (d : Disk) (name : String) : Except Failure FileData :=
  match d.file name with
  | none => Except.error Failure.notExist
  | some data =>
    if d.refuseRead name then Except.error Failure.readRefused else Except.ok data

/-- The fields of `Task` (main.go, lines 25-31). -/
inductive Field where
  | id
  | description
  | dueDate
  | priority
  | completed
deriving DecidableEq, Repr

/-- The key of a field in the file, from its struct tag. -/
def Field.tag : Field → String
  | Field.id => "id"
  | Field.description => "description"
  | Field.dueDate => "due_date"
  | Field.priority => "priority"
  | Field.completed => "completed"

/-- The fields of `Task` in the order of the struct. -/
def taskFields : List Field :=
  [Field.id, Field.description, Field.dueDate, Field.priority, Field.completed]

/-- Modelled from the spec: the JSON object written for a task, with the field
names of section 6 in the order of the struct; `due_date` is the RFC 3339 text, and
a due date without one is the error of `Time.MarshalJSON`. -/
def marshalTask (task : Task) : Except Failure JSON :=
  match formatRFC3339 task.DueDate with
  | none => Except.error Failure.marshalTime
  | some text =>
    Except.ok (JSON.object
      [(Field.id.tag, JSON.number task.ID),
       (Field.description.tag, JSON.string task.Description),
       (Field.dueDate.tag, JSON.string (String.mk text)),
       (Field.priority.tag, JSON.string task.Priority),
       (Field.completed.tag, JSON.bool task.Completed)])

/-- The result for a list from the result for its head and the result for its tail:
the first error, or the list of the two results. -/
def consResult {α : Type} (head : Except Failure α) (tail : Except Failure (List α)) :
    Except Failure (List α) :=
  match head with
  | Except.error e => Except.error e
  | Except.ok x =>
    match tail with
    | Except.error e => Except.error e
    | Except.ok xs => Except.ok (x :: xs)

/-- The JSON objects of the tasks of a list, up to the first error. -/
def marshalTasks : List Task → Except Failure (List JSON)
  | [] => Except.ok []
  | task :: rest => consResult (marshalTask task) (marshalTasks rest)

/-- Modelled from the spec: `json.MarshalIndent(t.Tasks, "", "  ")`: the text of the
JSON array of the tasks.  (For a nil slice the library writes `null`; a list does
not tell a nil slice from an empty one, and `Unmarshal` reads both as no tasks.) -/
def MarshalIndent (tasks : List Task) : Except Failure FileData :=
  match marshalTasks tasks with
  | Except.error e => Except.error e
  | Except.ok elems => Except.ok (FileData.document (JSON.array elems))

/-- The letter a character counts as when keys are compared without regard to case:
the lower-case letter of an upper-case one, `s` for the long s (U+017F) and `k` for
the Kelvin sign (U+212A). -/
def foldChar (c : Char) : Char :=
  if c = Char.ofNat 0x17F then 's' else if c = Char.ofNat 0x212A then 'k' else c.toLower

/-- Modelled from the spec: the field a key of a JSON object is stored in:
`Unmarshal` documents that it prefers an exact match of the key and also accepts
a case-insensitive one; other keys are ignored. -/
def fieldOf (key : String) : Option Field :=
  match taskFields.find? (fun f => f.tag = key) with
  | some f => some f
  | none =>
    taskFields.find? (fun f => f.tag.toList.map foldChar = key.toList.map foldChar)

/-- Go: the zero `time.Time`, January 1 of the year 1, 00:00:00 UTC. -/
def zeroTime : Time :=
  ⟨-62135596800, 0⟩

/-- Go: the zero `Task`, which `Unmarshal` appends to the slice and then fills. -/
def zeroTask : Task :=
  ⟨0, "", zeroTime, "", false⟩

/-- Modelled from the spec: a JSON value stored in a field of a task.  As
`Unmarshal` documents, `null` has no effect, an `int` takes a number written as an
integer that fits it, a `string` a JSON string, a `bool` a JSON boolean, and a
`time.Time` a JSON string in the RFC 3339 format; anything else is an error. -/
def setField (task : Task) (field : Field) (value : JSON) : Except Failure Task :=
  match field, value with
  | _, JSON.null => Except.ok task
  | Field.id, JSON.number n =>
    if intMin ≤ n ∧ n ≤ intMax then
      Except.ok ⟨n, task.Description, task.DueDate, task.Priority, task.Completed⟩
    else
      Except.error Failure.badType
  | Field.description, JSON.string s =>
    Except.ok ⟨task.ID, s, task.DueDate, task.Priority, task.Completed⟩
  | Field.dueDate, JSON.string s =>
    match parseRFC3339 s.toList with
    | some due => Except.ok ⟨task.ID, task.Description, due, task.Priority, task.Completed⟩
    | none => Except.error Failure.badTime
  | Field.dueDate, _ => Except.error Failure.badTime
  | Field.priority, JSON.string s =>
    Except.ok ⟨task.ID, task.Description, task.DueDate, s, task.Completed⟩
  | Field.completed, JSON.bool b =>
    Except.ok ⟨task.ID, task.Description, task.DueDate, task.Priority, b⟩
  | _, _ => Except.error Failure.badType

/-- The members of a JSON object stored in a task one after the other. -/
def setMembers (task : Task) : List (String × JSON) → Except Failure Task
  | [] => Except.ok task
  | (key, value) :: rest =>
    match fieldOf key with
    | none => setMembers task rest
    | some field =>
      match setField task field value with
      | Except.error e => Except.error e
      | Except.ok task1 => setMembers task1 rest

/-- Modelled from the spec: the task read from an element of the JSON array: the
zero task filled from the members of an object; `null` leaves the zero task, any
other value is an error. -/
def decodeTask : JSON → Except Failure Task
  | JSON.null => Except.ok zeroTask
  | JSON.object members => setMembers zeroTask members
  | _ => Except.error Failure.badType

/-- The tasks read from the elements of a JSON array, up to the first error. -/
def decodeTasks : List JSON → Except Failure (List Task)
  | [] => Except.ok []
  | elem :: rest => consResult (decodeTask elem) (decodeTasks rest)

/-- Modelled from the spec: `json.Unmarshal(data, &t.Tasks)`, reduced to whether it
fails and the slice when it does not: malformed JSON is an error, `null` leaves the
slice as it is, an array replaces it by the tasks read from its elements, and any
other value is an error. -/
def Unmarshal (data : FileData) (tasks : List Task) : Except Failure (List Task) :=
  match data with
  | FileData.malformed => Except.error Failure.badText
  | FileData.document JSON.null => Except.ok tasks
  | FileData.document (JSON.array elems) => decodeTasks elems
  | FileData.document _ => Except.error Failure.badType

/-- Go: `func (t *TodoList) SaveTasks() error`: the file system after the call, or
the error of `json.MarshalIndent` or of `ioutil.WriteFile`. -/
def SaveTasks (d : Disk) (t : TodoList) : Except Failure Disk :=
  match MarshalIndent t.Tasks with
  | Except.error err => Except.error err
  | Except.ok data => WriteFile d t.File data

/-- Go: `func (t *TodoList) LoadTasks() error`: the list after the call, or the error
of `ioutil.ReadFile` (none when the file does not exist) or of `json.Unmarshal`. -/
def LoadTasks (d : Disk) (t : TodoList) : Except Failure TodoList :=
  match ReadFile d t.File with
  | Except.error Failure.notExist => Except.ok t
  | Except.error err => Except.error err
  | Except.ok data =>
    match Unmarshal data t.Tasks with
    | Except.error err => Except.error err
    | Except.ok tasks => Except.ok ⟨tasks, t.File⟩

/-- A task whose fields are values of their Go types: the ID is an `int` and the
nanoseconds of the due date are less than a second. -/
def Task.WellFormed (task : Task) : Prop :=
  intMin ≤ task.ID ∧ task.ID ≤ intMax ∧ task.DueDate.nsec < 1000000000

/-- A file system with no files that refuses nothing. -/
def emptyDisk : Disk :=
  ⟨fun _ => none, fun _ => false, fun _ => false⟩

/-- A file system with no files that refuses every write. -/
def readOnlyDisk : Disk :=
  ⟨fun _ => none, fun _ => true, fun _ => false⟩

/-- A file system with no files that refuses every read. -/
def writeOnlyDisk : Disk :=
  ⟨fun _ => none, fun _ => false, fun _ => true⟩

/-- A list with one task, due on 10000-01-01. -/
def farFutureList : TodoList :=
  ⟨[⟨1, "Open the time capsule", ⟨253402300800, 0⟩, Low, false⟩], "tasks.json"⟩

/-! ## Call sequences -/

/-- One call of a mutating method of `TodoList`, with its arguments. -/
inductive Call where
  | add (description : String) (dueDate : Time) (priority : Priority)
  | complete (id : Int)
  | delete (id : Int)
deriving DecidableEq, Repr

/-- The list state after one call; an error result of the call is dropped. -/
def applyCall (t : TodoList) : Call → TodoList
  | Call.add description dueDate priority => AddTask t description dueDate priority
  | Call.complete id => (MarkComplete t id).1
  | Call.delete id => (DeleteTask t id).1

/-- The list state after a sequence of calls, made on the empty list of
`NewTodoList`. -/
def runCalls (filename : String) (calls : List Call) : TodoList :=
  calls.foldl applyCall (NewTodoList filename)

/-- The arguments of one `AddTask` call. -/
structure AddArgs where
  description : String
  dueDate : Time
  priority : Priority
deriving DecidableEq, Repr

/-- A run of `AddTask` calls with nothing in between. -/
def addAll (t : TodoList) (args : List AddArgs) : TodoList :=
  args.foldl (fun s a => AddTask s a.description a.dueDate a.priority) t

/-- The task the `k`-th call of a run of `AddTask` calls is expected to add (`k` counted
from 0): ID `k + 1`, the given fields, not completed. -/
def expectedTask (k : Nat) (a : AddArgs) : Task :=
  ⟨(k : Int) + 1, a.description, a.dueDate, a.priority, false⟩

/-- The specification's `max(existing IDs)`: the greatest ID in a list of tasks
(`0` for the empty list, so that `max + 1` is `1` there). -/
def specMaxID : List Task → Int
  | [] => 0
  | [task] => task.ID
  | task :: next :: rest => max task.ID (specMaxID (next :: rest))

/-- A list of five tasks as a file can hold it: two tasks share the ID 2, and the
IDs are not in increasing order. -/
def sampleTasks : List Task :=
  [⟨1, "Buy milk", ⟨1705276800, 0⟩, Low, false⟩,
   ⟨2, "Pay rent", ⟨1704067200, 0⟩, High, false⟩,
   ⟨2, "Call home", ⟨1706745600, 0⟩, Medium, false⟩,
   ⟨5, "Book flight", ⟨1704067200, 500⟩, High, true⟩,
   ⟨3, "Water plants", ⟨1704067200, 0⟩, "someday", true⟩]

/-- A list whose last task does not have the greatest ID. -/
def unorderedList : TodoList :=
  ⟨[⟨2, "Pay rent", ⟨1704067200, 0⟩, High, false⟩,
    ⟨1, "Buy milk", ⟨1705276800, 0⟩, Low, false⟩], "tasks.json"⟩

/-- The sample tasks in a `TodoList`. -/
def sampleList : TodoList :=
  ⟨sampleTasks, "tasks.json"⟩

/-- The IDs of a list of tasks increase strictly along the list. -/
def IncreasingIDs (tasks : List Task) : Prop :=
  (tasks.map Task.ID).Pairwise (fun a b => a < b)

/-- The number of `AddTask` calls in a sequence of calls. -/
def countAdds : List Call → Nat
  | [] => 0
  | Call.add _ _ _ :: rest => countAdds rest + 1
  | _ :: rest => countAdds rest

end TodoGolang

namespace TodoGolang

/-! ## The scan for an ID -/

theorem scanID_eq_none {id : Int} {tasks : List Task} {i : Nat}
    (h : ∀ x ∈ tasks, x.ID ≠ id) : scanID id tasks i = none := by
  induction tasks generalizing i with
  | nil => rfl
  | cons task rest ih =>
    have h1 : task.ID ≠ id := h task (List.mem_cons_self _ _)
    have h2 : ∀ x ∈ rest, x.ID ≠ id := fun x hx => h x (List.mem_cons_of_mem _ hx)
    simp [scanID, h1, ih h2]

theorem scanID_eq_some {id : Int} {tasks : List Task} (i : Nat)
    (h : ∃ x ∈ tasks, x.ID = id) :
    ∃ pre x post, tasks = pre ++ x :: post ∧ x.ID = id ∧ (∀ y ∈ pre, y.ID ≠ id) ∧
      scanID id tasks i = some (i + pre.length) := by
  induction tasks generalizing i with
  | nil => simp at h
  | cons task rest ih =>
    by_cases h1 : task.ID = id
    · exact ⟨[], task, rest, rfl, h1, by simp, by simp [scanID, h1]⟩
    · have h2 : ∃ x ∈ rest, x.ID = id := by
        obtain ⟨x, hx, hid⟩ := h
        rcases List.mem_cons.mp hx with rfl | hx
        · exact absurd hid h1
        · exact ⟨x, hx, hid⟩
      obtain ⟨pre, x, post, hsplit, hid, hpre, hscan⟩ := ih (i + 1) h2
      refine ⟨task :: pre, x, post, by simp [hsplit], hid, ?_, ?_⟩
      · intro y hy
        rcases List.mem_cons.mp hy with rfl | hy
        · exact h1
        · exact hpre y hy
      · simp [scanID, h1, hscan]; omega

theorem scanID_split {id : Int} (pre : List Task) (x : Task) (post : List Task) (i : Nat)
    (hpre : ∀ y ∈ pre, y.ID ≠ id) (hx : x.ID = id) :
    scanID id (pre ++ x :: post) i = some (i + pre.length) := by
  induction pre generalizing i with
  | nil => simp [scanID, hx]
  | cons y ys ih =>
    have h1 : y.ID ≠ id := hpre y (List.mem_cons_self _ _)
    have h2 : ∀ z ∈ ys, z.ID ≠ id := fun z hz => hpre z (List.mem_cons_of_mem _ hz)
    show (if y.ID = id then some i else scanID id (ys ++ x :: post) (i + 1)) = _
    rw [if_neg h1, ih (i + 1) h2, List.length_cons]
    congr 1
    omega

/-- Either no task has the ID, or some task has it. -/
theorem absent_or_split (id : Int) (tasks : List Task) :
    (∀ x ∈ tasks, x.ID ≠ id) ∨ (∃ x ∈ tasks, x.ID = id) := by
  by_cases h : ∃ x ∈ tasks, x.ID = id
  · exact Or.inr h
  · left
    intro x hx hid
    exact h ⟨x, hx, hid⟩

/-! ## MarkComplete and DeleteTask -/

theorem DeleteTask_absent {t : TodoList} {id : Int} (h : ∀ x ∈ t.Tasks, x.ID ≠ id) :
    DeleteTask t id = (t, some (notFoundError id)) := by
  simp [DeleteTask, scanID_eq_none h]

theorem MarkComplete_absent {t : TodoList} {id : Int} (h : ∀ x ∈ t.Tasks, x.ID ≠ id) :
    MarkComplete t id = (t, some (notFoundError id)) := by
  simp [MarkComplete, scanID_eq_none h]

theorem DeleteTask_present {t : TodoList} {id : Int} (h : ∃ x ∈ t.Tasks, x.ID = id) :
    ∃ pre x post, t.Tasks = pre ++ x :: post ∧ x.ID = id ∧ (∀ y ∈ pre, y.ID ≠ id) ∧
      DeleteTask t id = (⟨pre ++ post, t.File⟩, none) := by
  obtain ⟨pre, x, post, hsplit, hid, hpre, hscan⟩ := scanID_eq_some 0 h
  refine ⟨pre, x, post, hsplit, hid, hpre, ?_⟩
  rw [Nat.zero_add] at hscan
  simp only [DeleteTask, hscan]
  simp [hsplit]

theorem MarkComplete_present {t : TodoList} {id : Int} (h : ∃ x ∈ t.Tasks, x.ID = id) :
    ∃ pre x post, t.Tasks = pre ++ x :: post ∧ x.ID = id ∧ (∀ y ∈ pre, y.ID ≠ id) ∧
      MarkComplete t id = (⟨pre ++ setCompleted x :: post, t.File⟩, none) := by
  obtain ⟨pre, x, post, hsplit, hid, hpre, hscan⟩ := scanID_eq_some 0 h
  refine ⟨pre, x, post, hsplit, hid, hpre, ?_⟩
  rw [Nat.zero_add] at hscan
  simp only [MarkComplete, hscan]
  have hget : (pre ++ x :: post).getD pre.length default = x := by
    rw [List.getD_eq_getElem?_getD, List.getElem?_append_right (le_refl _)]
    simp
  rw [hsplit, hget]
  simp

theorem MarkComplete_split {id : Int} (pre : List Task) (x : Task) (post : List Task)
    (file : String) (hpre : ∀ y ∈ pre, y.ID ≠ id) (hx : x.ID = id) :
    MarkComplete ⟨pre ++ x :: post, file⟩ id = (⟨pre ++ setCompleted x :: post, file⟩, none) := by
  have hscan := scanID_split pre x post 0 hpre hx
  rw [Nat.zero_add] at hscan
  simp only [MarkComplete, hscan]
  have hget : (pre ++ x :: post).getD pre.length default = x := by
    rw [List.getD_eq_getElem?_getD, List.getElem?_append_right (le_refl _)]
    simp
  rw [hget]
  simp

theorem MarkComplete_map_ID (t : TodoList) (id : Int) :
    (MarkComplete t id).1.Tasks.map Task.ID = t.Tasks.map Task.ID := by
  rcases absent_or_split id t.Tasks with h | h
  · rw [MarkComplete_absent h]
  · obtain ⟨pre, x, post, hsplit, -, -, hres⟩ := MarkComplete_present h
    rw [hres, hsplit]
    simp [setCompleted]

theorem DeleteTask_sublist (t : TodoList) (id : Int) :
    (DeleteTask t id).1.Tasks.Sublist t.Tasks := by
  rcases absent_or_split id t.Tasks with h | h
  · rw [DeleteTask_absent h]
  · obtain ⟨pre, x, post, hsplit, -, -, hres⟩ := DeleteTask_present h
    rw [hres, hsplit]
    exact (List.sublist_cons_self x post).append_left pre

/-! ## AddTask -/

theorem nextID_nil : nextID [] = 1 := rfl

/-- A list is empty or ends in a last element. -/
theorem nil_or_snoc {α : Type} (l : List α) : l = [] ∨ ∃ init last, l = init ++ [last] := by
  rcases List.eq_nil_or_concat l with h | ⟨init, last, h⟩
  · exact Or.inl h
  · exact Or.inr ⟨init, last, by rw [h, List.concat_eq_append]⟩

theorem nextID_concat (init : List Task) (last : Task) :
    nextID (init ++ [last]) = last.ID + 1 := by
  simp [nextID]

theorem IncreasingIDs.lt_nextID {tasks : List Task} (h : IncreasingIDs tasks) :
    ∀ x ∈ tasks, x.ID < nextID tasks := by
  rcases nil_or_snoc tasks with rfl | ⟨init, last, rfl⟩
  · simp
  · intro x hx
    rw [nextID_concat]
    unfold IncreasingIDs at h
    rw [List.map_append, List.pairwise_append] at h
    rcases List.mem_append.mp hx with hx | hx
    · have := h.2.2 x.ID (List.mem_map_of_mem _ hx) last.ID (by simp)
      omega
    · simp at hx
      subst hx
      omega

theorem IncreasingIDs.addTask {t : TodoList} (h : IncreasingIDs t.Tasks)
    (d : String) (due : Time) (p : Priority) : IncreasingIDs (AddTask t d due p).Tasks := by
  unfold IncreasingIDs
  simp only [AddTask, List.map_append, List.map_cons, List.map_nil]
  rw [List.pairwise_append]
  refine ⟨h, List.pairwise_singleton _ _, ?_⟩
  intro a ha b hb
  obtain ⟨x, hx, rfl⟩ := List.mem_map.mp ha
  simp at hb
  subst hb
  exact h.lt_nextID x hx

theorem IncreasingIDs.applyCall {t : TodoList} (h : IncreasingIDs t.Tasks) (c : Call) :
    IncreasingIDs (applyCall t c).Tasks := by
  cases c with
  | add d due p => exact h.addTask d due p
  | complete id =>
    unfold IncreasingIDs
    simp only [TodoGolang.applyCall]
    rw [MarkComplete_map_ID]
    exact h
  | delete id =>
    exact List.Pairwise.sublist ((DeleteTask_sublist t id).map Task.ID) h

theorem IncreasingIDs.foldl {t : TodoList} (h : IncreasingIDs t.Tasks) (calls : List Call) :
    IncreasingIDs (calls.foldl TodoGolang.applyCall t).Tasks := by
  induction calls generalizing t with
  | nil => exact h
  | cons c rest ih => exact ih (h.applyCall c)

theorem IncreasingIDs.pairwise_ne {tasks : List Task} (h : IncreasingIDs tasks) :
    tasks.Pairwise (fun a b => a.ID ≠ b.ID) := by
  unfold IncreasingIDs at h
  rw [List.pairwise_map] at h
  exact h.imp (fun hab => ne_of_lt hab)

/-- The greatest ID is an upper bound of the IDs. -/
theorem le_specMaxID : ∀ (tasks : List Task), ∀ x ∈ tasks, x.ID ≤ specMaxID tasks
  | [], x, hx => by simp at hx
  | [task], x, hx => by
    simp at hx
    subst hx
    simp [specMaxID]
  | task :: next :: rest, x, hx => by
    have ih := le_specMaxID (next :: rest)
    simp only [specMaxID]
    rcases List.mem_cons.mp hx with rfl | hx
    · exact le_max_left _ _
    · exact le_trans (ih x hx) (le_max_right _ _)

/-- The greatest ID of a list that is not empty is the ID of one of its tasks. -/
theorem specMaxID_mem : ∀ (tasks : List Task), tasks ≠ [] → ∃ x ∈ tasks, x.ID = specMaxID tasks
  | [], h => absurd rfl h
  | [task], _ => ⟨task, by simp, by simp [specMaxID]⟩
  | task :: next :: rest, _ => by
    obtain ⟨x, hx, hmax⟩ := specMaxID_mem (next :: rest) (by simp)
    simp only [specMaxID]
    rcases le_total task.ID (specMaxID (next :: rest)) with hle | hle
    · exact ⟨x, List.mem_cons_of_mem _ hx, by rw [max_eq_right hle]; exact hmax⟩
    · exact ⟨task, List.mem_cons_self _ _, by rw [max_eq_left hle]⟩

theorem specMaxID_concat (init : List Task) (last : Task) (h : ∀ x ∈ init, x.ID ≤ last.ID) :
    specMaxID (init ++ [last]) = last.ID := by
  apply le_antisymm
  · obtain ⟨x, hx, hmax⟩ := specMaxID_mem (init ++ [last]) (by simp)
    rw [← hmax]
    rcases List.mem_append.mp hx with hx | hx
    · exact h x hx
    · simp at hx
      subst hx
      exact le_refl _
  · exact le_specMaxID _ last (by simp)

/-! ## A run of AddTask calls -/

theorem addAll_concat (t : TodoList) (args : List AddArgs) (a : AddArgs) :
    addAll t (args ++ [a]) = AddTask (addAll t args) a.description a.dueDate a.priority := by
  simp [addAll, List.foldl_append]

theorem addAll_tasks (filename : String) (args : List AddArgs) :
    (addAll (NewTodoList filename) args).Tasks = args.mapIdx expectedTask := by
  induction args using List.reverseRecOn with
  | nil => rfl
  | append_singleton args a ih =>
    rw [addAll_concat, List.mapIdx_append]
    simp only [AddTask, ih]
    congr 1
    rcases nil_or_snoc args with rfl | ⟨init, last, rfl⟩
    · simp [nextID, expectedTask]
    · rw [List.mapIdx_append]
      simp [nextID_concat, expectedTask]

/-! ## FilterTasks -/

theorem FilterTasks.loop_eq (p : Priority) (c : Option Bool) (tasks filtered : List Task) :
    FilterTasks.loop p c tasks filtered = filtered ++ tasks.filter (filterCond p c) := by
  induction tasks generalizing filtered with
  | nil => simp [FilterTasks.loop]
  | cons task rest ih =>
    by_cases h : filterCond p c task = true
    · simp [FilterTasks.loop, h, ih]
    · simp [FilterTasks.loop, h, ih]

theorem filterCond_iff (p : Priority) (c : Option Bool) (x : Task) :
    filterCond p c x = true ↔ (p = "" ∨ x.Priority = p) ∧ (c = none ∨ c = some x.Completed) := by
  cases c with
  | none =>
    simp only [filterCond, Bool.and_true, Bool.or_eq_true, beq_iff_eq, true_or, and_true]
  | some b =>
    simp only [filterCond, Bool.and_eq_true, Bool.or_eq_true, beq_iff_eq, Option.some.injEq,
      false_or, reduceCtorEq]
    constructor
    · rintro ⟨h1, h2⟩
      exact ⟨h1, h2.symm⟩
    · rintro ⟨h1, h2⟩
      exact ⟨h1, h2.symm⟩

/-! ## sort.Slice -/

theorem insertLeft_perm {α : Type} (less : α → α → Bool) (x : α) (l : List α) :
    (insertLeft less x l).Perm (x :: l) := by
  induction l with
  | nil => exact List.Perm.refl _
  | cons y ys ih =>
    by_cases h : less x y = true
    · simp only [insertLeft, h, if_true]
      exact (List.Perm.cons y ih).trans (List.Perm.swap x y ys)
    · have h2 : less x y = false := by simpa using h
      simp only [insertLeft, h2, Bool.false_eq_true, if_false]
      exact List.Perm.refl _

theorem foldl_insertLeft_perm {α : Type} (less : α → α → Bool) (data sorted : List α) :
    (data.foldl (fun s x => insertLeft less x s) sorted).Perm (data ++ sorted) := by
  induction data generalizing sorted with
  | nil => exact List.Perm.refl _
  | cons x xs ih =>
    simp only [List.foldl_cons, List.cons_append]
    exact (ih _).trans (((insertLeft_perm less x sorted).append_left xs).trans List.perm_middle)

theorem sortSlice_perm {α : Type} (less : α → α → Bool) (data : List α) :
    (sortSlice less data).Perm data := by
  unfold sortSlice
  refine (List.reverse_perm _).trans ?_
  simpa using foldl_insertLeft_perm less data []

theorem insertLeft_pairwise {α : Type} (less : α → α → Bool)
    (hasym : ∀ a b, less a b = true → less b a = false)
    (htrans : ∀ a b c, less a b = false → less b c = false → less a c = false)
    (x : α) (l : List α) (h : l.Pairwise (fun a b => less a b = false)) :
    (insertLeft less x l).Pairwise (fun a b => less a b = false) := by
  induction l with
  | nil => exact List.pairwise_singleton _ _
  | cons y ys ih =>
    rw [List.pairwise_cons] at h
    by_cases hxy : less x y = true
    · simp only [insertLeft, hxy, if_true]
      rw [List.pairwise_cons]
      refine ⟨?_, ih h.2⟩
      intro b hb
      rcases List.mem_cons.mp ((insertLeft_perm less x ys).mem_iff.mp hb) with rfl | hb
      · exact hasym _ _ hxy
      · exact h.1 b hb
    · have hxy2 : less x y = false := by simpa using hxy
      simp only [insertLeft, hxy2, Bool.false_eq_true, if_false]
      rw [List.pairwise_cons]
      refine ⟨?_, List.pairwise_cons.mpr h⟩
      intro b hb
      rcases List.mem_cons.mp hb with rfl | hb
      · exact hxy2
      · exact htrans _ _ _ hxy2 (h.1 b hb)

theorem foldl_insertLeft_pairwise {α : Type} (less : α → α → Bool)
    (hasym : ∀ a b, less a b = true → less b a = false)
    (htrans : ∀ a b c, less a b = false → less b c = false → less a c = false)
    (data sorted : List α) (h : sorted.Pairwise (fun a b => less a b = false)) :
    (data.foldl (fun s x => insertLeft less x s) sorted).Pairwise
      (fun a b => less a b = false) := by
  induction data generalizing sorted with
  | nil => exact h
  | cons x xs ih => exact ih _ (insertLeft_pairwise less hasym htrans x sorted h)

/-- The result of the sort is in order: no element is less than one before it. -/
theorem sortSlice_pairwise {α : Type} (less : α → α → Bool)
    (hasym : ∀ a b, less a b = true → less b a = false)
    (htrans : ∀ a b c, less a b = false → less b c = false → less a c = false)
    (data : List α) : (sortSlice less data).Pairwise (fun a b => less b a = false) := by
  unfold sortSlice
  rw [List.pairwise_reverse]
  exact foldl_insertLeft_pairwise less hasym htrans data [] List.Pairwise.nil

theorem lessDate_eq_false_iff (a b : Task) :
    lessDate a b = false ↔
      b.DueDate.sec < a.DueDate.sec ∨
        (b.DueDate.sec = a.DueDate.sec ∧ b.DueDate.nsec ≤ a.DueDate.nsec) := by
  simp only [lessDate, Time.Before, Bool.or_eq_false_iff, Bool.and_eq_false_iff,
    decide_eq_false_iff_not]
  omega

theorem lessDate_eq_true_iff (a b : Task) :
    lessDate a b = true ↔
      a.DueDate.sec < b.DueDate.sec ∨
        (a.DueDate.sec = b.DueDate.sec ∧ a.DueDate.nsec < b.DueDate.nsec) := by
  simp only [lessDate, Time.Before, Bool.or_eq_true, Bool.and_eq_true, decide_eq_true_eq]

theorem lessDate_asymm (a b : Task) (h : lessDate a b = true) : lessDate b a = false := by
  rw [lessDate_eq_true_iff] at h
  rw [lessDate_eq_false_iff]
  omega

theorem lessDate_negtrans (a b c : Task) (h1 : lessDate a b = false)
    (h2 : lessDate b c = false) : lessDate a c = false := by
  rw [lessDate_eq_false_iff] at *
  omega

theorem lessPriority_eq_false_iff (a b : Task) :
    lessPriority a b = false ↔ pMap a.Priority ≤ pMap b.Priority := by
  simp only [lessPriority, decide_eq_false_iff_not, gt_iff_lt, not_lt]

theorem lessPriority_asymm (a b : Task) (h : lessPriority a b = true) :
    lessPriority b a = false := by
  rw [lessPriority_eq_false_iff]
  simp only [lessPriority, decide_eq_true_eq] at h
  omega

theorem lessPriority_negtrans (a b c : Task) (h1 : lessPriority a b = false)
    (h2 : lessPriority b c = false) : lessPriority a c = false := by
  rw [lessPriority_eq_false_iff] at *
  omega

/-! ## Decimal text: Atoi and Itoa -/

theorem digitChar_isDigit (d : Nat) (h : d < 10) : (Nat.digitChar d).isDigit = true := by
  interval_cases d <;> rfl

theorem digitChar_toNat (d : Nat) (h : d < 10) : (Nat.digitChar d).toNat - 48 = d := by
  interval_cases d <;> rfl

theorem isDigit_ne_slash (c : Char) (h : c.isDigit = true) : c ≠ '/' := by
  rintro rfl
  exact absurd h (by decide)

theorem isDigit_ne_minus (c : Char) (h : c.isDigit = true) : c ≠ '-' := by
  rintro rfl
  exact absurd h (by decide)

theorem isDigit_ne_plus (c : Char) (h : c.isDigit = true) : c ≠ '+' := by
  rintro rfl
  exact absurd h (by decide)

theorem digitsValue_concat (s : List Char) (c : Char) :
    digitsValue (s ++ [c]) = 10 * digitsValue s + (c.toNat - 48) := by
  simp [digitsValue, List.foldl_append]

theorem digitsValue_digits (l : List Nat) (h : ∀ d ∈ l, d < 10) :
    digitsValue (l.reverse.map Nat.digitChar) = Nat.ofDigits 10 l := by
  induction l with
  | nil => rfl
  | cons d ds ih =>
    have hd : d < 10 := h d (List.mem_cons_self _ _)
    have hds : ∀ e ∈ ds, e < 10 := fun e he => h e (List.mem_cons_of_mem _ he)
    rw [List.reverse_cons, List.map_append, List.map_singleton, digitsValue_concat, ih hds,
      digitChar_toNat d hd, Nat.ofDigits_cons]
    omega

theorem natDecimal_ne_nil (m : Nat) : natDecimal m ≠ [] := by
  unfold natDecimal
  split
  · simp
  · rename_i h
    have hdig : Nat.digits 10 m ≠ [] := Nat.digits_ne_nil_iff_ne_zero.mpr h
    simpa using hdig

theorem natDecimal_isDigit (m : Nat) : ∀ c ∈ natDecimal m, c.isDigit = true := by
  unfold natDecimal
  split
  · intro c hc
    simp at hc
    subst hc
    rfl
  · intro c hc
    obtain ⟨d, hd, rfl⟩ := List.mem_map.mp hc
    exact digitChar_isDigit d (Nat.digits_lt_base (by norm_num) (List.mem_reverse.mp hd))

theorem digitsValue_natDecimal (m : Nat) : digitsValue (natDecimal m) = m := by
  unfold natDecimal
  split
  · rename_i h
    subst h
    rfl
  · rw [digitsValue_digits _ (fun d hd => Nat.digits_lt_base (by norm_num) hd),
      Nat.ofDigits_digits]

theorem Atoi_digits (s : List Char) (hne : s ≠ []) (hd : ∀ c ∈ s, c.isDigit = true)
    (hr : (digitsValue s : Int) ≤ intMax) : Atoi s = some (digitsValue s : Int) := by
  cases s with
  | nil => exact absurd rfl hne
  | cons c rest =>
    have hc : c.isDigit = true := hd c (List.mem_cons_self _ _)
    have h1 : c ≠ '-' := isDigit_ne_minus c hc
    have h2 : c ≠ '+' := isDigit_ne_plus c hc
    have hall : (c :: rest).all Char.isDigit = true := List.all_eq_true.mpr hd
    have hmin : intMin ≤ (digitsValue (c :: rest) : Int) := by
      have : (0 : Int) ≤ (digitsValue (c :: rest) : Int) := Int.ofNat_nonneg _
      unfold intMin
      omega
    unfold Atoi
    split
    · rename_i heq
      exact absurd (List.cons.inj heq).1 h1
    · rename_i heq
      exact absurd (List.cons.inj heq).1 h2
    · simp [hall, h1, hmin, hr]

theorem Atoi_minus_digits (s : List Char) (hne : s ≠ []) (hd : ∀ c ∈ s, c.isDigit = true)
    (hr : intMin ≤ -(digitsValue s : Int)) : Atoi ('-' :: s) = some (-(digitsValue s : Int)) := by
  have hall : s.all Char.isDigit = true := List.all_eq_true.mpr hd
  have hmax : -(digitsValue s : Int) ≤ intMax := by
    have : (0 : Int) ≤ (digitsValue s : Int) := Int.ofNat_nonneg _
    unfold intMax
    omega
  unfold Atoi
  simp [hall, hne, hr, hmax]

/-- Every `int` is read back from its decimal text. -/
theorem Atoi_Itoa (n : Int) (hmin : intMin ≤ n) (hmax : n ≤ intMax) : Atoi (Itoa n) = some n := by
  unfold Itoa
  split
  · rename_i hneg
    have hval : -((digitsValue (natDecimal n.natAbs) : Nat) : Int) = n := by
      rw [digitsValue_natDecimal]
      omega
    rw [Atoi_minus_digits _ (natDecimal_ne_nil _) (natDecimal_isDigit _) (by rw [hval]; exact hmin),
      hval]
  · rename_i hneg
    have hval : ((digitsValue (natDecimal n.natAbs) : Nat) : Int) = n := by
      rw [digitsValue_natDecimal]
      omega
    rw [Atoi_digits _ (natDecimal_ne_nil _) (natDecimal_isDigit _) (by rw [hval]; exact hmax),
      hval]

theorem slash_not_mem_Itoa (n : Int) : '/' ∉ Itoa n := by
  unfold Itoa
  have h : '/' ∉ natDecimal n.natAbs :=
    fun hmem => isDigit_ne_slash _ (natDecimal_isDigit _ _ hmem) rfl
  split
  · intro hmem
    rcases List.mem_cons.mp hmem with h1 | h1
    · exact absurd h1 (by decide)
    · exact h h1
  · exact h

/-- The last character of the decimal text of an integer is a digit. -/
theorem Itoa_getLast_isDigit (n : Int) : ∃ init c, Itoa n = init ++ [c] ∧ c.isDigit = true := by
  have hne := natDecimal_ne_nil n.natAbs
  rcases nil_or_snoc (natDecimal n.natAbs) with h | ⟨init, c, h⟩
  · exact absurd h hne
  · have hc : c.isDigit = true := natDecimal_isDigit n.natAbs c (by rw [h]; simp)
    unfold Itoa
    split
    · exact ⟨'-' :: init, c, by rw [h]; rfl, hc⟩
    · exact ⟨init, c, h, hc⟩

/-! ## The handler for `/api/tasks/` -/

theorem splitOn_completePath (n : Int) :
    (completePath n).splitOn '/' =
      [[], "api".toList, "tasks".toList, Itoa n, "complete".toList] := by
  have h : ([ '/' ].intercalate
      [[], "api".toList, "tasks".toList, Itoa n, "complete".toList]).splitOn '/' =
      [[], "api".toList, "tasks".toList, Itoa n, "complete".toList] :=
    List.splitOn_intercalate _ '/'
    (by
      intro l hl
      simp only [List.mem_cons, List.mem_singleton, List.not_mem_nil, or_false] at hl
      rcases hl with rfl | rfl | rfl | rfl | rfl
      · simp
      · decide
      · decide
      · exact slash_not_mem_Itoa n
      · decide)
    (by simp)
  rw [← h]
  rfl

theorem splitOn_deletePath (n : Int) :
    (deletePath n).splitOn '/' = [[], "api".toList, "tasks".toList, Itoa n] := by
  have h : ([ '/' ].intercalate
      [[], "api".toList, "tasks".toList, Itoa n]).splitOn '/' =
      [[], "api".toList, "tasks".toList, Itoa n] :=
    List.splitOn_intercalate _ '/'
    (by
      intro l hl
      simp only [List.mem_cons, List.mem_singleton, List.not_mem_nil, or_false] at hl
      rcases hl with rfl | rfl | rfl | rfl
      · simp
      · decide
      · decide
      · exact slash_not_mem_Itoa n)
    (by simp)
  rw [← h]
  simp [deletePath, List.intercalate]

theorem suffix_completePath (n : Int) : "/complete".toList.isSuffixOf (completePath n) = true := by
  rw [List.isSuffixOf_iff_suffix]
  exact List.suffix_append _ _

theorem suffix_deletePath (n : Int) : "/complete".toList.isSuffixOf (deletePath n) = false := by
  rw [Bool.eq_false_iff]
  intro h
  rw [List.isSuffixOf_iff_suffix] at h
  obtain ⟨front, hfront⟩ := h
  obtain ⟨init, c, hc, hdig⟩ := Itoa_getLast_isDigit n
  have hpath : deletePath n = ("/api/tasks/".toList ++ init) ++ [c] := by
    rw [deletePath, hc, List.append_assoc]
  have hfront2 : (front ++ "/complete".toList.dropLast) ++ [ 'e' ] =
      ("/api/tasks/".toList ++ init) ++ [c] := by
    rw [← hpath, ← hfront, List.append_assoc]
    rfl
  have hlast : 'e' = c := (List.append_inj_right' hfront2 rfl |> List.cons.inj).1
  rw [← hlast] at hdig
  exact absurd hdig (by decide)

theorem tasksHandler_complete (t : TodoList) (n : Int) (hmin : intMin ≤ n) (hmax : n ≤ intMax) :
    tasksHandler t ⟨"POST", completePath n⟩ =
      ((MarkComplete t n).1, if (MarkComplete t n).2 = none then 204 else 404) := by
  simp only [tasksHandler, splitOn_completePath, suffix_completePath]
  simp only [List.length_cons, List.length_nil, List.getD_cons_succ, List.getD_cons_zero,
    Atoi_Itoa n hmin hmax]
  rcases hres : MarkComplete t n with ⟨t1, _ | e⟩ <;> simp

theorem tasksHandler_delete (t : TodoList) (n : Int) (hmin : intMin ≤ n) (hmax : n ≤ intMax) :
    tasksHandler t ⟨"DELETE", deletePath n⟩ =
      ((DeleteTask t n).1, if (DeleteTask t n).2 = none then 204 else 404) := by
  simp only [tasksHandler, splitOn_deletePath, suffix_deletePath]
  simp only [List.length_cons, List.length_nil, List.getD_cons_succ, List.getD_cons_zero,
    Atoi_Itoa n hmin hmax]
  rcases hres : DeleteTask t n with ⟨t1, _ | e⟩ <;> simp

theorem tasksHandler_bad_id (t : TodoList) (r : Request)
    (h : (r.Path.splitOn '/').length < 4 ∨ Atoi ((r.Path.splitOn '/').getD 3 []) = none) :
    tasksHandler t r = (t, 400) := by
  by_cases hlen : (r.Path.splitOn '/').length < 4
  · simp only [tasksHandler, hlen, if_true]
  · rcases h with h | h
    · exact absurd h hlen
    · simp only [tasksHandler, hlen, if_false, h]

/-! ## Priorities -/

theorem pMap_le_three (p : Priority) : pMap p ≤ 3 := by
  unfold pMap
  split_ifs <;> omega

theorem pMap_eq_three_iff (p : Priority) : pMap p = 3 ↔ p = High := by
  unfold pMap
  split_ifs with h1 h2 h3 <;> simp [h1]

theorem pMap_eq_two_iff (p : Priority) : pMap p = 2 ↔ p = Medium := by
  unfold pMap
  split_ifs with h1 h2 h3
  · subst h1
    simp
    decide
  · simp [h2]
  · simp [h2]
  · simp [h2]

theorem pMap_eq_one_iff (p : Priority) : pMap p = 1 ↔ p = Low := by
  unfold pMap
  split_ifs with h1 h2 h3
  · subst h1
    simp
    decide
  · subst h2
    simp
    decide
  · simp [h3]
  · simp [h3]

theorem pMap_cases (p : Priority) : pMap p = 3 ∨ pMap p = 2 ∨ pMap p = 1 ∨ pMap p = 0 := by
  unfold pMap
  split_ifs <;> simp

/-- In priority order, a high task is preceded only by high tasks, a medium task only
by high and medium tasks, a low task only by high, medium and low tasks. -/
theorem order_of_pMap_le {a b : Task} (h : pMap b.Priority ≤ pMap a.Priority) :
    (b.Priority = High → a.Priority = High) ∧
    (b.Priority = Medium → a.Priority = High ∨ a.Priority = Medium) ∧
    (b.Priority = Low → a.Priority = High ∨ a.Priority = Medium ∨ a.Priority = Low) := by
  have ha := pMap_cases a.Priority
  refine ⟨fun hb => ?_, fun hb => ?_, fun hb => ?_⟩
  · have hb3 := (pMap_eq_three_iff b.Priority).mpr hb
    have h3 := pMap_le_three a.Priority
    exact (pMap_eq_three_iff a.Priority).mp (by omega)
  · have hb2 := (pMap_eq_two_iff b.Priority).mpr hb
    have h3 := pMap_le_three a.Priority
    rcases ha with h | h | h | h
    · exact Or.inl ((pMap_eq_three_iff _).mp h)
    · exact Or.inr ((pMap_eq_two_iff _).mp h)
    · omega
    · omega
  · have hb1 := (pMap_eq_one_iff b.Priority).mpr hb
    rcases ha with h | h | h | h
    · exact Or.inl ((pMap_eq_three_iff _).mp h)
    · exact Or.inr (Or.inl ((pMap_eq_two_iff _).mp h))
    · exact Or.inr (Or.inr ((pMap_eq_one_iff _).mp h))
    · omega

/-! ## The range of the IDs -/

theorem one_le_nextID {tasks : List Task} (h : ∀ x ∈ tasks, 1 ≤ x.ID) : 1 ≤ nextID tasks := by
  rcases nil_or_snoc tasks with rfl | ⟨init, last, rfl⟩
  · simp [nextID_nil]
  · rw [nextID_concat]
    have := h last (by simp)
    omega

theorem nextID_le {tasks : List Task} {bound : Int} (hb : 0 ≤ bound)
    (h : ∀ x ∈ tasks, x.ID ≤ bound) : nextID tasks ≤ bound + 1 := by
  rcases nil_or_snoc tasks with rfl | ⟨init, last, rfl⟩
  · rw [nextID_nil]
    omega
  · rw [nextID_concat]
    have := h last (by simp)
    omega

theorem ID_bounds_foldl (calls : List Call) (t : TodoList) (bound : Nat)
    (h : ∀ x ∈ t.Tasks, 1 ≤ x.ID ∧ x.ID ≤ bound) :
    ∀ x ∈ (calls.foldl applyCall t).Tasks, 1 ≤ x.ID ∧ x.ID ≤ (bound + countAdds calls : Nat) := by
  induction calls generalizing t bound with
  | nil => simpa [countAdds] using h
  | cons c rest ih =>
    cases c with
    | add d due p =>
      have hstep : ∀ x ∈ (AddTask t d due p).Tasks, 1 ≤ x.ID ∧ x.ID ≤ (bound + 1 : Nat) := by
        intro x hx
        simp only [AddTask, List.mem_append, List.mem_singleton] at hx
        rcases hx with hx | rfl
        · have := h x hx
          push_cast
          omega
        · have h1 := one_le_nextID (fun y hy => (h y hy).1)
          have h2 : nextID t.Tasks ≤ (bound : Int) + 1 :=
            nextID_le (Int.ofNat_nonneg _) (fun y hy => (h y hy).2)
          push_cast
          exact ⟨h1, h2⟩
      have := ih (AddTask t d due p) (bound + 1) hstep
      simpa [countAdds, Nat.add_assoc, Nat.add_comm 1] using this
    | complete id =>
      have hstep : ∀ x ∈ (MarkComplete t id).1.Tasks, 1 ≤ x.ID ∧ x.ID ≤ bound := by
        intro x hx
        have hmem : x.ID ∈ (MarkComplete t id).1.Tasks.map Task.ID := List.mem_map_of_mem _ hx
        rw [MarkComplete_map_ID] at hmem
        obtain ⟨y, hy, hxy⟩ := List.mem_map.mp hmem
        rw [← hxy]
        exact h y hy
      simpa [countAdds] using ih (MarkComplete t id).1 bound hstep
    | delete id =>
      have hstep : ∀ x ∈ (DeleteTask t id).1.Tasks, 1 ≤ x.ID ∧ x.ID ≤ bound :=
        fun x hx => h x ((DeleteTask_sublist t id).subset hx)
      simpa [countAdds] using ih (DeleteTask t id).1 bound hstep

/-- In a list reached from the empty list every ID lies between 1 and the number of
`AddTask` calls made, so the `ID + 1` of `AddTask` stays within Go's `int` for
fewer than `2 ^ 63` such calls. -/
theorem reachable_ID_bounds (filename : String) (calls : List Call) :
    ∀ x ∈ (runCalls filename calls).Tasks, 1 ≤ x.ID ∧ x.ID ≤ (countAdds calls : Nat) := by
  have h := ID_bounds_foldl calls (NewTodoList filename) 0 (by simp [NewTodoList])
  simpa [runCalls] using h

/-! ## The properties of the specification -/

/-- C1: ID uniqueness is an invariant of the task list. In every list reached from the
empty list by a finite sequence of `AddTask`, `MarkComplete` and `DeleteTask` calls
with arbitrary arguments (failing calls included), no two tasks have the same ID. -/
theorem reachable_IDs_unique (filename : String) (calls : List Call) :
    (runCalls filename calls).Tasks.Pairwise (fun a b => a.ID ≠ b.ID) :=
  IncreasingIDs.pairwise_ne
    (IncreasingIDs.foldl (t := NewTodoList filename) List.Pairwise.nil calls)

/-- C2, as the specification states it, fails on a list whose last task does not have
the greatest ID: on the IDs 2, 1 `AddTask` assigns the ID 2, not max + 1 = 3 (and a
second task with the ID 2 is in the list). -/
theorem AddTask_not_max_plus_one :
    (AddTask unorderedList "Call home" ⟨1706745600, 0⟩ Medium).Tasks ≠
        unorderedList.Tasks ++
          [⟨specMaxID unorderedList.Tasks + 1, "Call home", ⟨1706745600, 0⟩, Medium, false⟩] ∧
      (AddTask unorderedList "Call home" ⟨1706745600, 0⟩ Medium).Tasks.map Task.ID = [2, 1, 2] ∧
      specMaxID unorderedList.Tasks + 1 = 3 := by
  decide

/-- C2, amended: for every task list `AddTask` appends a task with the ID 1 when the
list is empty, and otherwise with the ID of the last task of the list plus one; this
is max(existing IDs) + 1 whenever no task has a greater ID than the last one. -/
theorem AddTask_assigns_last_plus_one (t : TodoList) (d : String) (due : Time) (p : Priority) :
    (t.Tasks = [] → AddTask t d due p = ⟨[⟨1, d, due, p, false⟩], t.File⟩) ∧
    (∀ init last, t.Tasks = init ++ [last] →
      AddTask t d due p = ⟨t.Tasks ++ [⟨last.ID + 1, d, due, p, false⟩], t.File⟩) ∧
    (∀ init last, t.Tasks = init ++ [last] → (∀ x ∈ init, x.ID ≤ last.ID) →
      AddTask t d due p = ⟨t.Tasks ++ [⟨specMaxID t.Tasks + 1, d, due, p, false⟩], t.File⟩) := by
  refine ⟨fun h => ?_, fun init last h => ?_, fun init last h hle => ?_⟩
  · simp [AddTask, h, nextID_nil]
  · simp only [AddTask, h, nextID_concat]
  · simp only [AddTask, h, nextID_concat, specMaxID_concat init last hle]

/-- C2, amended, on the sample list (IDs 1, 2, 2, 5, 3): the new task gets the ID 4,
one more than the ID of the last task; on its first four tasks (IDs 1, 2, 2, 5), where
the last ID is the greatest, the new task gets the ID max + 1 = 6. -/
theorem AddTask_assigns_last_plus_one_witness :
    AddTask sampleList "Call home" ⟨1706745600, 0⟩ Medium =
        ⟨sampleList.Tasks ++ [⟨4, "Call home", ⟨1706745600, 0⟩, Medium, false⟩],
          sampleList.File⟩ ∧
      (∀ x ∈ sampleTasks.take 3, x.ID ≤ 5) ∧
      AddTask ⟨sampleTasks.take 4, "tasks.json"⟩ "Call home" ⟨1706745600, 0⟩ Medium =
        ⟨sampleTasks.take 4 ++
          [⟨specMaxID (sampleTasks.take 4) + 1, "Call home", ⟨1706745600, 0⟩, Medium, false⟩],
          "tasks.json"⟩ ∧
      specMaxID (sampleTasks.take 4) + 1 = 6 :=
  ⟨(AddTask_assigns_last_plus_one sampleList "Call home" ⟨1706745600, 0⟩ Medium).2.1
      (sampleTasks.take 4) ⟨3, "Water plants", ⟨1704067200, 0⟩, "someday", true⟩ rfl,
    by decide,
    (AddTask_assigns_last_plus_one ⟨sampleTasks.take 4, "tasks.json"⟩ "Call home"
      ⟨1706745600, 0⟩ Medium).2.2
      (sampleTasks.take 3) ⟨5, "Book flight", ⟨1704067200, 500⟩, High, true⟩ rfl (by decide),
    by decide⟩

/-- C3: for every task list and every id that occurs in it, `DeleteTask(id)` returns
success and the new list is the old one without the first task whose ID is id: the
tasks before it and after it stay, unchanged and in order, and the length drops by
one. -/
theorem DeleteTask_removes_first_match (t : TodoList) (id : Int)
    (h : ∃ x ∈ t.Tasks, x.ID = id) :
    ∃ pre x post, t.Tasks = pre ++ x :: post ∧ x.ID = id ∧ (∀ y ∈ pre, y.ID ≠ id) ∧
      DeleteTask t id = (⟨pre ++ post, t.File⟩, none) ∧
      (DeleteTask t id).1.Tasks.length + 1 = t.Tasks.length := by
  obtain ⟨pre, x, post, hsplit, hid, hpre, hres⟩ := DeleteTask_present h
  refine ⟨pre, x, post, hsplit, hid, hpre, hres, ?_⟩
  rw [hres, hsplit]
  simp only [List.length_append, List.length_cons]
  omega

/-- C3 on the sample list: the ID 2 occurs twice, and `DeleteTask(2)` removes the first
of the two tasks only. -/
theorem DeleteTask_removes_first_match_witness :
    (∃ x ∈ sampleList.Tasks, x.ID = 2) ∧
    (∃ pre x post, sampleList.Tasks = pre ++ x :: post ∧ x.ID = 2 ∧ (∀ y ∈ pre, y.ID ≠ 2) ∧
      DeleteTask sampleList 2 = (⟨pre ++ post, sampleList.File⟩, none) ∧
      (DeleteTask sampleList 2).1.Tasks.length + 1 = sampleList.Tasks.length) ∧
    (DeleteTask sampleList 2).1.Tasks.map Task.Description =
      ["Buy milk", "Call home", "Book flight", "Water plants"] :=
  ⟨by decide, DeleteTask_removes_first_match sampleList 2 (by decide), by decide⟩

/-- C4: for every task list and every id that no task of it has, `MarkComplete(id)`
returns the not-found error and leaves the list as it was. -/
theorem MarkComplete_absent_unchanged (t : TodoList) (id : Int)
    (h : ∀ x ∈ t.Tasks, x.ID ≠ id) :
    MarkComplete t id = (t, some (notFoundError id)) :=
  MarkComplete_absent h

/-- C4 on the sample list: no task has the ID 4. -/
theorem MarkComplete_absent_unchanged_witness :
    (∀ x ∈ sampleList.Tasks, x.ID ≠ 4) ∧
    MarkComplete sampleList 4 = (sampleList, some (notFoundError 4)) :=
  ⟨by decide, MarkComplete_absent_unchanged sampleList 4 (by decide)⟩

/-- C5: for every task list, priority `p` and optional boolean `c`, `FilterTasks(p, c)`
is the list of the tasks with (`p` empty or priority `p`) and (`c` unset or completed
flag `c`), in their order in the list; `FilterTasks("", nil)` is the whole list and
`FilterTasks(High, true)` the completed high-priority tasks. -/
theorem FilterTasks_spec (t : TodoList) (p : Priority) (c : Option Bool) :
    FilterTasks t p c =
        t.Tasks.filter
          (fun x => decide ((p = "" ∨ x.Priority = p) ∧ (c = none ∨ c = some x.Completed))) ∧
      FilterTasks t "" none = t.Tasks ∧
      FilterTasks t High (some true) =
        t.Tasks.filter (fun x => decide (x.Priority = High ∧ x.Completed = true)) := by
  have key : ∀ (q : Priority) (b : Option Bool), FilterTasks t q b =
      t.Tasks.filter
        (fun x => decide ((q = "" ∨ x.Priority = q) ∧ (b = none ∨ b = some x.Completed))) := by
    intro q b
    rw [FilterTasks, FilterTasks.loop_eq, List.nil_append]
    apply List.filter_congr
    intro x _
    rw [Bool.eq_iff_iff, filterCond_iff, decide_eq_true_iff]
  refine ⟨key p c, ?_, ?_⟩
  · rw [key]
    simp
  · rw [key]
    apply List.filter_congr
    intro x _
    have hne : High ≠ "" := by decide
    rw [decide_eq_decide]
    constructor
    · rintro ⟨h1, h2⟩
      refine ⟨h1.resolve_left hne, ?_⟩
      rcases h2 with h2 | h2
      · exact absurd h2 (by simp)
      · exact (Option.some.inj h2).symm
    · rintro ⟨h1, h2⟩
      exact ⟨Or.inr h1, Or.inr (by rw [h2])⟩

/-- C6: for every task list and every `sortBy`, `ListTasks(sortBy)` leaves the stored
list as it is and prints a permutation of it; with `date` the due dates printed do
not decrease, with `priority` the priorities printed go down (high, then medium, then
low), and with any other `sortBy` the tasks are printed in the order of the list. -/
theorem ListTasks_spec (t : TodoList) (sortBy : String) :
    (ListTasks t sortBy).1 = t ∧
    (ListTasks t sortBy).2.Perm t.Tasks ∧
    (sortBy = "date" →
      (ListTasks t sortBy).2.Pairwise (fun a b =>
        a.DueDate.sec < b.DueDate.sec ∨
          (a.DueDate.sec = b.DueDate.sec ∧ a.DueDate.nsec ≤ b.DueDate.nsec))) ∧
    (sortBy = "priority" →
      (ListTasks t sortBy).2.Pairwise (fun a b =>
        pMap b.Priority ≤ pMap a.Priority ∧
        (b.Priority = High → a.Priority = High) ∧
        (b.Priority = Medium → a.Priority = High ∨ a.Priority = Medium) ∧
        (b.Priority = Low → a.Priority = High ∨ a.Priority = Medium ∨ a.Priority = Low))) ∧
    (sortBy ≠ "date" → sortBy ≠ "priority" → (ListTasks t sortBy).2 = t.Tasks) := by
  by_cases hlen : t.Tasks.length = 0
  · have hnil : t.Tasks = [] := List.length_eq_zero.mp hlen
    simp [ListTasks, hnil]
  · refine ⟨?_, ?_, ?_, ?_, ?_⟩
    · simp only [ListTasks, hlen, if_false]
    · simp only [ListTasks, hlen, if_false]
      split_ifs
      · exact sortSlice_perm _ _
      · exact sortSlice_perm _ _
      · exact List.Perm.refl _
    · intro hdate
      simp only [ListTasks, hlen, if_false, hdate, if_true]
      exact (sortSlice_pairwise lessDate lessDate_asymm lessDate_negtrans t.Tasks).imp
        (fun {a b} hab => (lessDate_eq_false_iff b a).mp hab)
    · intro hprio
      have hne : ¬ (sortBy = "date") := by
        rw [hprio]
        decide
      simp only [ListTasks, hlen, if_false, hne, hprio, if_true]
      exact (sortSlice_pairwise lessPriority lessPriority_asymm lessPriority_negtrans
        t.Tasks).imp
        (fun {a b} hab =>
          ⟨(lessPriority_eq_false_iff b a).mp hab,
            order_of_pMap_le ((lessPriority_eq_false_iff b a).mp hab)⟩)
    · intro h1 h2
      simp only [ListTasks, hlen, if_false, h1, h2]

/-- C6 on the sample list: the order printed for `date`, for `priority` and for
`none`. -/
theorem ListTasks_spec_witness :
    ((ListTasks sampleList "date").1 = sampleList ∧
      (ListTasks sampleList "date").2.Perm sampleList.Tasks) ∧
    (ListTasks sampleList "date").2.map Task.Description =
      ["Pay rent", "Water plants", "Book flight", "Buy milk", "Call home"] ∧
    (ListTasks sampleList "priority").2.map Task.Description =
      ["Pay rent", "Book flight", "Call home", "Buy milk", "Water plants"] ∧
    (ListTasks sampleList "none").2 = sampleList.Tasks :=
  ⟨⟨(ListTasks_spec sampleList "date").1, (ListTasks_spec sampleList "date").2.1⟩,
    by decide, by decide, by decide⟩

theorem mapIdx_expectedTask_IDs (args : List AddArgs) :
    (args.mapIdx expectedTask).map Task.ID = (List.range' 1 args.length).map Int.ofNat := by
  apply List.ext_getElem
  · simp
  · intro i h1 h2
    simp [expectedTask]
    omega

theorem mapIdx_expectedTask_lt (args : List AddArgs) :
    ∀ x ∈ args.mapIdx expectedTask, x.ID < (args.length : Int) + 1 := by
  intro x hx
  obtain ⟨i, hi, rfl⟩ := List.getElem_of_mem hx
  have hlt : i < args.length := by simpa using hi
  simp [expectedTask]
  omega

/-- C8: starting from the empty list, a run of `AddTask` calls gives the list of the
tasks with the IDs 1, 2, ..., n in list order, each with the description, due date and
priority of its call and not completed; a further call appends its task at the end,
with an ID (n + 1) greater than every ID in the list before it. -/
theorem AddTask_sequence (filename : String) (args : List AddArgs) (a : AddArgs) :
    (addAll (NewTodoList filename) args).Tasks = args.mapIdx expectedTask ∧
    (addAll (NewTodoList filename) args).Tasks.map Task.ID =
      (List.range' 1 args.length).map Int.ofNat ∧
    (AddTask (addAll (NewTodoList filename) args) a.description a.dueDate a.priority).Tasks =
      (addAll (NewTodoList filename) args).Tasks ++
        [⟨(args.length : Int) + 1, a.description, a.dueDate, a.priority, false⟩] ∧
    (∀ x ∈ (addAll (NewTodoList filename) args).Tasks, x.ID < (args.length : Int) + 1) := by
  refine ⟨addAll_tasks filename args, ?_, ?_, ?_⟩
  · rw [addAll_tasks, mapIdx_expectedTask_IDs]
  · rw [← addAll_concat, addAll_tasks, addAll_tasks, List.mapIdx_append]
    simp [expectedTask]
  · rw [addAll_tasks]
    exact mapIdx_expectedTask_lt args

/-- C9: for the `/api/tasks/` handler, every task list and every `int` n, a POST to
`/api/tasks/n/complete` and a DELETE to `/api/tasks/n` answer 204 when a task with
the ID n is in the list (the list is then the one `MarkComplete`, `DeleteTask` leave)
and 404 with the list unchanged when none is; and a request whose path has no 4th
segment that `strconv.Atoi` accepts is answered 400 with the list unchanged, whatever
its method. -/
theorem tasksHandler_status (t : TodoList) :
    (∀ n : Int, intMin ≤ n → n ≤ intMax →
      ((∃ x ∈ t.Tasks, x.ID = n) →
        tasksHandler t ⟨"POST", completePath n⟩ = ((MarkComplete t n).1, 204) ∧
        tasksHandler t ⟨"DELETE", deletePath n⟩ = ((DeleteTask t n).1, 204)) ∧
      ((∀ x ∈ t.Tasks, x.ID ≠ n) →
        tasksHandler t ⟨"POST", completePath n⟩ = (t, 404) ∧
        tasksHandler t ⟨"DELETE", deletePath n⟩ = (t, 404))) ∧
    (∀ r : Request,
      ((r.Path.splitOn '/').length < 4 ∨ Atoi ((r.Path.splitOn '/').getD 3 []) = none) →
        tasksHandler t r = (t, 400)) := by
  refine ⟨fun n hmin hmax => ⟨fun h => ?_, fun h => ?_⟩, fun r h => tasksHandler_bad_id t r h⟩
  · obtain ⟨p1, x1, q1, -, -, -, hmark⟩ := MarkComplete_present h
    obtain ⟨p2, x2, q2, -, -, -, hdel⟩ := DeleteTask_present h
    rw [tasksHandler_complete t n hmin hmax, tasksHandler_delete t n hmin hmax, hmark, hdel]
    simp
  · rw [tasksHandler_complete t n hmin hmax, tasksHandler_delete t n hmin hmax,
      MarkComplete_absent h, DeleteTask_absent h]
    simp

/-- C9 on the sample list: completing and deleting task 5 is answered 204, task 4 is
not found (404), and `/api/tasks/abc` is answered 400. -/
theorem tasksHandler_status_witness :
    (completePath 5 = "/api/tasks/5/complete".toList ∧
      deletePath 4 = "/api/tasks/4".toList) ∧
    (tasksHandler sampleList ⟨"POST", completePath 5⟩).2 = 204 ∧
    (tasksHandler sampleList ⟨"DELETE", deletePath 5⟩).2 = 204 ∧
    tasksHandler sampleList ⟨"POST", completePath 4⟩ = (sampleList, 404) ∧
    tasksHandler sampleList ⟨"DELETE", deletePath 4⟩ = (sampleList, 404) ∧
    tasksHandler sampleList ⟨"DELETE", "/api/tasks/abc".toList⟩ = (sampleList, 400) := by
  have h := tasksHandler_status sampleList
  have h5 := (h.1 5 (by decide) (by decide)).1 (by decide)
  have h4 := (h.1 4 (by decide) (by decide)).2 (by decide)
  refine ⟨⟨?_, ?_⟩, ?_, ?_, h4.1, h4.2, h.2 _ (by decide)⟩
  · simp [completePath, Itoa, natDecimal]
    rfl
  · simp [deletePath, Itoa, natDecimal]
    rfl
  · rw [h5.1]
  · rw [h5.2]

/-- C10: for every task list and every id that occurs in it, `MarkComplete(id)` returns
success and sets the completed flag of the first task whose ID is id, and nothing
else: that task keeps its ID, description, due date and priority, every other task is
unchanged, length and order stay; a second `MarkComplete(id)` gives the same list. -/
theorem MarkComplete_sets_flag_only (t : TodoList) (id : Int)
    (h : ∃ x ∈ t.Tasks, x.ID = id) :
    ∃ pre x post, t.Tasks = pre ++ x :: post ∧ x.ID = id ∧ (∀ y ∈ pre, y.ID ≠ id) ∧
      MarkComplete t id =
        (⟨pre ++ ⟨x.ID, x.Description, x.DueDate, x.Priority, true⟩ :: post, t.File⟩, none) ∧
      (MarkComplete t id).1.Tasks.length = t.Tasks.length ∧
      MarkComplete (MarkComplete t id).1 id = MarkComplete t id := by
  obtain ⟨pre, x, post, hsplit, hid, hpre, hres⟩ := MarkComplete_present h
  refine ⟨pre, x, post, hsplit, hid, hpre, hres, ?_, ?_⟩
  · rw [hres, hsplit]
    simp
  · rw [hres]
    exact MarkComplete_split pre (setCompleted x) post t.File hpre hid

/-- C10 on the sample list: the ID 2 occurs twice, `MarkComplete(2)` completes the first
of the two tasks only. -/
theorem MarkComplete_sets_flag_only_witness :
    (∃ x ∈ sampleList.Tasks, x.ID = 2) ∧
    (∃ pre x post, sampleList.Tasks = pre ++ x :: post ∧ x.ID = 2 ∧ (∀ y ∈ pre, y.ID ≠ 2) ∧
      MarkComplete sampleList 2 =
        (⟨pre ++ ⟨x.ID, x.Description, x.DueDate, x.Priority, true⟩ :: post,
          sampleList.File⟩, none) ∧
      (MarkComplete sampleList 2).1.Tasks.length = sampleList.Tasks.length ∧
      MarkComplete (MarkComplete sampleList 2).1 2 = MarkComplete sampleList 2) ∧
    (MarkComplete sampleList 2).1.Tasks.map (fun x => (x.Description, x.Completed)) =
      [("Buy milk", false), ("Pay rent", true), ("Call home", false), ("Book flight", true),
        ("Water plants", true)] :=
  ⟨by decide, MarkComplete_sets_flag_only sampleList 2 (by decide), by decide⟩

end TodoGolang

namespace TodoGolang

/-! ## The calendar -/

/-- The cycles `civilFromDays` counts and the date it gives in terms of them. -/
theorem civilFromDays_cycles (z : Int) :
    ∃ a b c e doy : Int, 0 ≤ b ∧ b ≤ 3 ∧ 0 ≤ c ∧ c ≤ 24 ∧ 0 ≤ e ∧ e ≤ 3 ∧ 0 ≤ doy ∧ doy ≤ 365 ∧
      (doy = 365 → e = 3 ∧ (c = 24 → b = 3)) ∧
      z = 146097 * a + 36524 * b + 1461 * c + 365 * e + doy ∧
      civilFromDays z =
        ⟨if (if (5 * doy + 2) / 153 < 10 then (5 * doy + 2) / 153 + 3
              else (5 * doy + 2) / 153 - 9) ≤ 2
            then 400 * a + 100 * b + 4 * c + e + 1 else 400 * a + 100 * b + 4 * c + e,
          if (5 * doy + 2) / 153 < 10 then (5 * doy + 2) / 153 + 3 else (5 * doy + 2) / 153 - 9,
          doy - (153 * ((5 * doy + 2) / 153) + 2) / 5 + 1⟩ := by
  refine ⟨z / 146097, if z % 146097 / 36524 < 3 then z % 146097 / 36524 else 3,
    (z % 146097 - 36524 * (if z % 146097 / 36524 < 3 then z % 146097 / 36524 else 3)) / 1461,
    if (z % 146097 - 36524 * (if z % 146097 / 36524 < 3 then z % 146097 / 36524 else 3)) %
        1461 / 365 < 3
      then (z % 146097 - 36524 * (if z % 146097 / 36524 < 3 then z % 146097 / 36524 else 3)) %
        1461 / 365
      else 3,
    (z % 146097 - 36524 * (if z % 146097 / 36524 < 3 then z % 146097 / 36524 else 3)) % 1461 -
      365 * (if (z % 146097 - 36524 *
          (if z % 146097 / 36524 < 3 then z % 146097 / 36524 else 3)) % 1461 / 365 < 3
        then (z % 146097 - 36524 *
          (if z % 146097 / 36524 < 3 then z % 146097 / 36524 else 3)) % 1461 / 365
        else 3), ?_, ?_, ?_, ?_, ?_, ?_, ?_, ?_, ?_, ?_, rfl⟩
  all_goals (split_ifs <;> omega)

/-- The days before a year that starts in March, by its place in the cycles. -/
theorem days_before_year (a b c e y : Int) (hb0 : 0 ≤ b) (hb : b ≤ 3) (hc0 : 0 ≤ c)
    (hc : c ≤ 24) (he0 : 0 ≤ e) (he : e ≤ 3) (hy : y = 400 * a + 100 * b + 4 * c + e) :
    365 * y + y / 4 - y / 100 + y / 400 = 146097 * a + 36524 * b + 1461 * c + 365 * e := by
  omega

/-- The number of a day is read back from its date. -/
theorem daysFromCivil_civilFromDays (z : Int) : daysFromCivil (civilFromDays z) = z := by
  obtain ⟨a, b, c, e, doy, hb0, hb, hc0, hc, he0, he, hd0, hd, -, hz, hciv⟩ :=
    civilFromDays_cycles z
  have hyear := days_before_year a b c e _ hb0 hb hc0 hc he0 he rfl
  rw [hciv]
  generalize hmp : (5 * doy + 2) / 153 = mp
  generalize hy : 400 * a + 100 * b + 4 * c + e = y at hyear
  have hmp0 : 0 ≤ mp := by omega
  have hmp11 : mp ≤ 11 := by omega
  by_cases hlt : mp < 10
  · have h1 : ¬ (mp + 3 ≤ 2) := by omega
    have h2 : mp + 3 > 2 := by omega
    simp only [daysFromCivil, hlt, if_true, h1, if_false, h2, add_sub_cancel_right]
    omega
  · have h1 : mp - 9 ≤ 2 := by omega
    have h2 : ¬ (mp - 9 > 2) := by omega
    simp only [daysFromCivil, hlt, if_false, h1, if_true, h2, add_sub_cancel_right,
      sub_add_cancel]
    omega

/-- The date of a day has a month from 1 to 12 and a day of that month. -/
theorem civilFromDays_valid (z : Int) :
    1 ≤ (civilFromDays z).month ∧ (civilFromDays z).month ≤ 12 ∧
      1 ≤ (civilFromDays z).day ∧
      (civilFromDays z).day ≤ daysIn (civilFromDays z).month (civilFromDays z).year := by
  obtain ⟨a, b, c, e, doy, hb0, hb, hc0, hc, he0, he, hd0, hd, hleap, hz, hciv⟩ :=
    civilFromDays_cycles z
  rw [hciv]
  simp only [daysIn, isLeap, Bool.and_eq_true, Bool.or_eq_true, beq_iff_eq, bne_iff_ne]
  split_ifs <;> omega

/-- The years 0 to 9999 in terms of the day of the year that starts in March and the
days before that year. -/
theorem year_range_of_days (y doy s : Int) (hd0 : 0 ≤ doy) (hd : doy ≤ 365)
    (hleap : doy = 365 → (y + 1) % 4 = 0 ∧ ((y + 1) % 100 = 0 → (y + 1) % 400 = 0))
    (hz : s / 86400 + 719468 = 365 * y + y / 4 - y / 100 + y / 400 + doy) :
    (0 ≤ (if 306 ≤ doy then y + 1 else y) ∧ (if 306 ≤ doy then y + 1 else y) ≤ 9999) ↔
      (-62167219200 ≤ s ∧ s ≤ 253402300799) := by
  have h1 : y ≤ -2 ∨ y = -1 ∨ (0 ≤ y ∧ y ≤ 9998) ∨ y = 9999 ∨ 10000 ≤ y := by omega
  rcases h1 with h | h | h | h | h
  · have : 365 * y + y / 4 - y / 100 + y / 400 ≤ -730 := by omega
    split_ifs <;> omega
  · subst h
    split_ifs <;> omega
  · have : 0 ≤ 365 * y + y / 4 - y / 100 + y / 400 := by omega
    have : 365 * y + y / 4 - y / 100 + y / 400 ≤ 3651694 := by omega
    split_ifs <;> omega
  · subst h
    split_ifs <;> omega
  · have : 3652424 ≤ 365 * y + y / 4 - y / 100 + y / 400 := by omega
    split_ifs <;> omega

/-- The year of a time is from 0 to 9999 exactly from 0000-01-01T00:00:00Z to
9999-12-31T23:59:59Z. -/
theorem Time.Year_range_iff (t : Time) :
    (0 ≤ t.Year ∧ t.Year ≤ 9999) ↔ (-62167219200 ≤ t.sec ∧ t.sec ≤ 253402300799) := by
  obtain ⟨a, b, c, e, doy, hb0, hb, hc0, hc, he0, he, hd0, hd, hleap, hz, hciv⟩ :=
    civilFromDays_cycles (t.sec / 86400 + epochDay)
  have hyear := days_before_year a b c e _ hb0 hb hc0 hc he0 he rfl
  have hkey := year_range_of_days (400 * a + 100 * b + 4 * c + e) doy t.sec hd0 hd
    (by omega) (by unfold epochDay at hz; omega)
  have hY : t.Year = if 306 ≤ doy then 400 * a + 100 * b + 4 * c + e + 1
      else 400 * a + 100 * b + 4 * c + e := by
    unfold Time.Year Time.civil
    rw [hciv]
    simp only
    split_ifs <;> omega
  rw [hY]
  exact hkey

/-! ## The digits of an RFC 3339 text -/

theorem digitChar_mod_isDigit (m : Nat) : (Nat.digitChar (m % 10)).isDigit = true :=
  digitChar_isDigit _ (Nat.mod_lt _ (by norm_num))

theorem digitChar_mod_toNat (m : Nat) : (Nat.digitChar (m % 10)).toNat - 48 = m % 10 :=
  digitChar_toNat _ (Nat.mod_lt _ (by norm_num))

theorem digitsValue_cons (c : Char) (cs : List Char) :
    digitsValue (c :: cs) = (c.toNat - 48) * 10 ^ cs.length + digitsValue cs := by
  induction cs using List.reverseRecOn with
  | nil => simp [digitsValue]
  | append_singleton cs d ih =>
    rw [← List.cons_append, digitsValue_concat, digitsValue_concat, ih, List.length_append,
      List.length_singleton, pow_succ]
    ring

theorem pad2_isDigit (n : Nat) : (pad2 n).all Char.isDigit = true := by
  simp [pad2, digitChar_mod_isDigit]

theorem pad4_isDigit (n : Nat) : (pad4 n).all Char.isDigit = true := by
  simp [pad4, digitChar_mod_isDigit]

theorem pad9_isDigit (n : Nat) : ∀ c ∈ pad9 n, c.isDigit = true := by
  intro c hc
  simp only [pad9, List.mem_cons, List.mem_singleton, List.not_mem_nil, or_false] at hc
  rcases hc with rfl | rfl | rfl | rfl | rfl | rfl | rfl | rfl | rfl <;>
    exact digitChar_mod_isDigit _

theorem digitsValue_pad2 (n : Nat) (h : n < 100) : digitsValue (pad2 n) = n := by
  simp only [pad2, digitsValue, List.foldl_cons, List.foldl_nil, digitChar_mod_toNat]
  omega

theorem digitsValue_pad4 (n : Nat) (h : n < 10000) : digitsValue (pad4 n) = n := by
  simp only [pad4, digitsValue, List.foldl_cons, List.foldl_nil, digitChar_mod_toNat]
  omega

theorem digitsValue_pad9 (n : Nat) (h : n < 1000000000) : digitsValue (pad9 n) = n := by
  simp only [pad9, digitsValue, List.foldl_cons, List.foldl_nil, digitChar_mod_toNat]
  omega

theorem parseUint_pad2 (n lo hi : Nat) (h : n < 100) (hlo : lo ≤ n) (hhi : n ≤ hi) :
    parseUint (pad2 n) lo hi = some n := by
  unfold parseUint
  rw [digitsValue_pad2 n h, if_pos ⟨pad2_isDigit n, hlo, hhi⟩]

theorem parseUint_pad4 (n lo hi : Nat) (h : n < 10000) (hlo : lo ≤ n) (hhi : n ≤ hi) :
    parseUint (pad4 n) lo hi = some n := by
  unfold parseUint
  rw [digitsValue_pad4 n h, if_pos ⟨pad4_isDigit n, hlo, hhi⟩]

theorem trimZeros_spec (cs : List Char) :
    (trimZeros cs).length ≤ cs.length ∧
      (∀ c ∈ trimZeros cs, c ∈ cs) ∧
      digitsValue (trimZeros cs) * 10 ^ (cs.length - (trimZeros cs).length) = digitsValue cs := by
  induction cs with
  | nil => simp [trimZeros, digitsValue]
  | cons c cs ih =>
    obtain ⟨hlen, hmem, hval⟩ := ih
    rcases htrim : trimZeros cs with _ | ⟨r, rest⟩
    · rw [htrim] at hval
      have hzero : digitsValue cs = 0 := by
        rw [← hval]
        simp [digitsValue]
      by_cases hc : c = '0'
      · subst hc
        simp only [trimZeros, htrim, if_true]
        refine ⟨by simp, by simp, ?_⟩
        rw [digitsValue_cons, hzero]
        simp [digitsValue]
      · simp only [trimZeros, htrim, hc, if_false]
        refine ⟨by simp, by simp, ?_⟩
        rw [digitsValue_cons, digitsValue_cons, hzero]
        simp [digitsValue]
    · rw [htrim] at hval hlen hmem
      simp only [trimZeros, htrim]
      refine ⟨by simpa using hlen, ?_, ?_⟩
      · intro x hx
        rcases List.mem_cons.mp hx with rfl | hx
        · exact List.mem_cons_self _ _
        · exact List.mem_cons_of_mem _ (hmem x hx)
      · rw [digitsValue_cons c (r :: rest), digitsValue_cons c cs, ← hval]
        have hpow : 10 ^ cs.length =
            10 ^ (r :: rest).length * 10 ^ (cs.length - (r :: rest).length) := by
          rw [← pow_add]
          congr 1
          omega
        have hk2 : (c :: cs).length - (c :: r :: rest).length =
            cs.length - (r :: rest).length := by
          simp
        rw [hk2, hpow]
        ring

theorem trimZeros_ne_nil (cs : List Char) (h : digitsValue cs ≠ 0) : trimZeros cs ≠ [] := by
  intro hnil
  have hval := (trimZeros_spec cs).2.2
  rw [hnil] at hval
  apply h
  rw [← hval]
  simp [digitsValue]

/-- The nanoseconds are read back from the digits of the fraction. -/
theorem parseNano_trimZeros_pad9 (n : Nat) (h : n < 1000000000) :
    parseNano (trimZeros (pad9 n)) = n := by
  obtain ⟨hlen, -, hval⟩ := trimZeros_spec (pad9 n)
  have h9 : (pad9 n).length = 9 := rfl
  rw [h9] at hlen hval
  unfold parseNano
  rw [List.take_of_length_le hlen, hval, digitsValue_pad9 n h]

/-! ## Writing and reading a timestamp -/

theorem takeWhile_isDigit_append_Z (ds : List Char) (h : ∀ c ∈ ds, c.isDigit = true) :
    (ds ++ [ 'Z' ]).takeWhile Char.isDigit = ds := by
  induction ds with
  | nil => rfl
  | cons c cs ih =>
    have hc : c.isDigit = true := h c (List.mem_cons_self _ _)
    have hcs : ∀ x ∈ cs, x.isDigit = true := fun x hx => h x (List.mem_cons_of_mem _ hx)
    simp [List.takeWhile, hc, ih hcs]

theorem parseTail_formatNano (n : Nat) (h : n < 1000000000) :
    parseTail (formatNano n ++ [ 'Z' ]) = some (n, 0) := by
  by_cases hn : n = 0
  · subst hn
    rfl
  · have hds : ∀ c ∈ trimZeros (pad9 n), c.isDigit = true :=
      fun c hc => pad9_isDigit n c ((trimZeros_spec (pad9 n)).2.1 c hc)
    have hne : trimZeros (pad9 n) ≠ [] :=
      trimZeros_ne_nil _ (by rw [digitsValue_pad9 n h]; exact hn)
    have hempty : (trimZeros (pad9 n)).isEmpty = false := by
      cases hx : trimZeros (pad9 n) with
      | nil => exact absurd hx hne
      | cons a b => rfl
    simp only [formatNano, hn, if_false, parseTail, List.cons_append,
      takeWhile_isDigit_append_Z _ hds, hempty, Bool.false_eq_true,
      parseNano_trimZeros_pad9 n h, List.drop_succ_cons, List.drop_left]
    rfl

/-- The text written for a time is read back as that time. -/
theorem parseRFC3339_formatRFC3339 (t : Time) (text : List Char)
    (hn : t.nsec < 1000000000) (h : formatRFC3339 t = some text) :
    parseRFC3339 text = some t := by
  obtain ⟨hm1, hm12, hd1, hdmax⟩ := civilFromDays_valid (t.sec / 86400 + epochDay)
  have hdays := daysFromCivil_civilFromDays (t.sec / 86400 + epochDay)
  have hciv : t.civil = civilFromDays (t.sec / 86400 + epochDay) := rfl
  rw [← hciv] at hm1 hm12 hd1 hdmax hdays
  unfold formatRFC3339 at h
  by_cases hyear : t.civil.year < 0 ∨ 9999 < t.civil.year
  · simp [hyear] at h
  · simp only [hyear, if_false, Option.some.injEq] at h
    subst h
    rcases hc : t.civil with ⟨Y, M, D⟩
    rw [hc] at hm1 hm12 hd1 hdmax hdays hyear
    simp only at hm1 hm12 hd1 hdmax hdays hyear
    have hD31 : D ≤ 31 := by
      have : daysIn M Y ≤ 31 := by
        unfold daysIn
        split_ifs <;> omega
      omega
    have hs : t.secondOfDay < 86400 := by
      unfold Time.secondOfDay
      omega
    have hY : (Y.toNat : Int) = Y := Int.toNat_of_nonneg (by omega)
    have hM : (M.toNat : Int) = M := Int.toNat_of_nonneg (by omega)
    have hD : (D.toNat : Int) = D := Int.toNat_of_nonneg (by omega)
    have pY : parseUint
        [Nat.digitChar (Y.toNat / 1000 % 10), Nat.digitChar (Y.toNat / 100 % 10),
          Nat.digitChar (Y.toNat / 10 % 10), Nat.digitChar (Y.toNat % 10)] 0 9999 =
        some Y.toNat := parseUint_pad4 Y.toNat 0 9999 (by omega) (by omega) (by omega)
    have pM : parseUint [Nat.digitChar (M.toNat / 10 % 10), Nat.digitChar (M.toNat % 10)] 1 12 =
        some M.toNat := parseUint_pad2 M.toNat 1 12 (by omega) (by omega) (by omega)
    have pD : parseUint [Nat.digitChar (D.toNat / 10 % 10), Nat.digitChar (D.toNat % 10)] 1
        (daysIn M Y).toNat = some D.toNat :=
      parseUint_pad2 D.toNat 1 _ (by omega) (by omega) (by omega)
    have pH : parseUint [Nat.digitChar (t.secondOfDay / 3600 / 10 % 10),
        Nat.digitChar (t.secondOfDay / 3600 % 10)] 0 23 = some (t.secondOfDay / 3600) :=
      parseUint_pad2 _ 0 23 (by omega) (by omega) (by omega)
    have pN : parseUint [Nat.digitChar (t.secondOfDay % 3600 / 60 / 10 % 10),
        Nat.digitChar (t.secondOfDay % 3600 / 60 % 10)] 0 59 =
        some (t.secondOfDay % 3600 / 60) :=
      parseUint_pad2 _ 0 59 (by omega) (by omega) (by omega)
    have pS : parseUint [Nat.digitChar (t.secondOfDay % 60 / 10 % 10),
        Nat.digitChar (t.secondOfDay % 60 % 10)] 0 59 = some (t.secondOfDay % 60) :=
      parseUint_pad2 _ 0 59 (by omega) (by omega) (by omega)
    simp only [pad4, pad2, List.cons_append, List.nil_append, parseRFC3339, pY, pM, pD, pH, pN,
      pS, parseTail_formatNano t.nsec hn, and_self, if_true, hY, hM, pD, hD, hdays]
    have hsec : (t.sec / 86400 + epochDay - epochDay) * 86400 +
        ((t.secondOfDay / 3600 * 3600 + t.secondOfDay % 3600 / 60 * 60 + t.secondOfDay % 60 :
          Nat) : Int) - 0 = t.sec := by
      have hsod : (t.secondOfDay : Int) = t.sec % 86400 := by
        unfold Time.secondOfDay
        omega
      omega
    rw [hsec]

/-! ## Writing and reading the file -/

theorem formatRFC3339_isSome_iff (t : Time) :
    (∃ text, formatRFC3339 t = some text) ↔ 0 ≤ t.Year ∧ t.Year ≤ 9999 := by
  unfold formatRFC3339 Time.Year
  by_cases h : t.civil.year < 0 ∨ 9999 < t.civil.year
  · simp only [h, if_true, reduceCtorEq, exists_false, false_iff]
    omega
  · simp only [h, if_false, Option.some.injEq, exists_eq', true_iff]
    omega

theorem marshalTask_isOk_iff (task : Task) :
    (∃ elem, marshalTask task = Except.ok elem) ↔
      0 ≤ task.DueDate.Year ∧ task.DueDate.Year ≤ 9999 := by
  rw [← formatRFC3339_isSome_iff]
  unfold marshalTask
  cases formatRFC3339 task.DueDate with
  | none => simp
  | some text => simp

theorem marshalTasks_isOk_iff (tasks : List Task) :
    (∃ elems, marshalTasks tasks = Except.ok elems) ↔
      ∀ x ∈ tasks, 0 ≤ x.DueDate.Year ∧ x.DueDate.Year ≤ 9999 := by
  induction tasks with
  | nil => simp [marshalTasks]
  | cons task rest ih =>
    rw [List.forall_mem_cons, ← ih, ← marshalTask_isOk_iff]
    simp only [marshalTasks]
    cases marshalTask task with
    | error e => simp [consResult]
    | ok elem =>
      cases marshalTasks rest with
      | error e => simp [consResult]
      | ok elems => simp [consResult]

theorem fieldOf_tag (f : Field) : fieldOf f.tag = some f := by
  cases f <;> decide

/-- The JSON object written for a task is read back as that task. -/
theorem decodeTask_marshalTask (task : Task) (elem : JSON) (hwf : task.WellFormed)
    (h : marshalTask task = Except.ok elem) : decodeTask elem = Except.ok task := by
  obtain ⟨hmin, hmax, hnsec⟩ := hwf
  unfold marshalTask at h
  cases htext : formatRFC3339 task.DueDate with
  | none => simp [htext] at h
  | some text =>
    simp only [htext, Except.ok.injEq] at h
    subst h
    have hparse : parseRFC3339 (String.mk text).toList = some task.DueDate :=
      parseRFC3339_formatRFC3339 task.DueDate text hnsec htext
    simp only [decodeTask, setMembers, fieldOf_tag, setField, hmin, hmax, and_self, if_true,
      hparse, zeroTask]

theorem decodeTasks_marshalTasks (tasks : List Task) (elems : List JSON)
    (hwf : ∀ x ∈ tasks, x.WellFormed) (h : marshalTasks tasks = Except.ok elems) :
    decodeTasks elems = Except.ok tasks := by
  induction tasks generalizing elems with
  | nil =>
    simp only [marshalTasks, Except.ok.injEq] at h
    subst h
    rfl
  | cons task rest ih =>
    simp only [marshalTasks] at h
    cases helem : marshalTask task with
    | error e => simp [helem, consResult] at h
    | ok elem =>
      cases hrest : marshalTasks rest with
      | error e => simp [helem, hrest, consResult] at h
      | ok restElems =>
        simp only [helem, hrest, consResult, Except.ok.injEq] at h
        subst h
        have h1 := decodeTask_marshalTask task elem (hwf task (List.mem_cons_self _ _)) helem
        have h2 := ih restElems (fun x hx => hwf x (List.mem_cons_of_mem _ hx)) hrest
        simp only [decodeTasks, h1, h2, consResult]

theorem SaveTasks_isOk_iff (d : Disk) (t : TodoList) :
    (∃ d1, SaveTasks d t = Except.ok d1) ↔
      (∀ x ∈ t.Tasks, 0 ≤ x.DueDate.Year ∧ x.DueDate.Year ≤ 9999) ∧
        d.refuseWrite t.File = false := by
  rw [← marshalTasks_isOk_iff]
  unfold SaveTasks MarshalIndent WriteFile
  cases marshalTasks t.Tasks with
  | error e => simp
  | ok elems =>
    cases d.refuseWrite t.File with
    | true => simp
    | false => simp

theorem LoadTasks_SaveTasks (d d1 : Disk) (t : TodoList)
    (hsave : SaveTasks d t = Except.ok d1) (hwf : ∀ x ∈ t.Tasks, x.WellFormed)
    (hread : d.refuseRead t.File = false) :
    LoadTasks d1 (NewTodoList t.File) = Except.ok ⟨t.Tasks, t.File⟩ := by
  unfold SaveTasks MarshalIndent at hsave
  cases helems : marshalTasks t.Tasks with
  | error e => simp [helems] at hsave
  | ok elems =>
    simp only [helems, WriteFile] at hsave
    cases hw : d.refuseWrite t.File with
    | true => simp [hw] at hsave
    | false =>
      simp only [hw, Bool.false_eq_true, if_false, Except.ok.injEq] at hsave
      subst hsave
      simp only [LoadTasks, ReadFile, NewTodoList, if_true, hread, Bool.false_eq_true, if_false,
        Unmarshal, decodeTasks_marshalTasks t.Tasks elems hwf helems]

/-- C7, as the specification states it, fails where the save or the read of the file
fails: a file system that refuses the write makes `SaveTasks` return the error of
`ioutil.WriteFile`; a due date in the year 10000 makes it return the error of
`json.MarshalIndent`, the file is not written and `LoadTasks` gives a list without
the task; and a file that is written but cannot be read makes `LoadTasks` return the
error of `ioutil.ReadFile`. -/
theorem SaveTasks_LoadTasks_can_fail :
    SaveTasks readOnlyDisk sampleList = Except.error Failure.writeRefused ∧
    SaveTasks emptyDisk farFutureList = Except.error Failure.marshalTime ∧
    LoadTasks emptyDisk (NewTodoList farFutureList.File) =
      Except.ok (NewTodoList farFutureList.File) ∧
    (∃ d1, SaveTasks writeOnlyDisk sampleList = Except.ok d1 ∧
      LoadTasks d1 (NewTodoList sampleList.File) = Except.error Failure.readRefused) :=
  ⟨rfl, rfl, rfl, _, rfl, rfl⟩

/-- C7, amended: for every task list whose tasks are values of their Go types and
every state of the file system, `SaveTasks` returns nil exactly when every due date
has a year from 0 to 9999 and the file system does not refuse the write; and when it
returns nil and the file system does not refuse the read, `LoadTasks` on the same
file into a fresh `TodoList` returns nil and gives the same tasks, equal field for
field (id, description, due date, priority, completed) and in the same order. -/
theorem SaveTasks_LoadTasks_roundtrip (d : Disk) (t : TodoList)
    (hwf : ∀ x ∈ t.Tasks, x.WellFormed) :
    ((∃ d1, SaveTasks d t = Except.ok d1) ↔
      (∀ x ∈ t.Tasks, 0 ≤ x.DueDate.Year ∧ x.DueDate.Year ≤ 9999) ∧
        d.refuseWrite t.File = false) ∧
    (∀ d1, SaveTasks d t = Except.ok d1 → d.refuseRead t.File = false →
      LoadTasks d1 (NewTodoList t.File) = Except.ok ⟨t.Tasks, t.File⟩) :=
  ⟨SaveTasks_isOk_iff d t, fun d1 hsave hread => LoadTasks_SaveTasks d d1 t hsave hwf hread⟩

/-- C7, amended, on the sample list and a file system without files: the save
succeeds, the load gives the sample list back; the due dates are written as
`2024-01-15T00:00:00Z` and, with 500 nanoseconds, `2024-01-01T00:00:00.0000005Z`. -/
theorem SaveTasks_LoadTasks_roundtrip_witness :
    (∀ x ∈ sampleList.Tasks, x.WellFormed) ∧
    (∃ d1, SaveTasks emptyDisk sampleList = Except.ok d1 ∧
      LoadTasks d1 (NewTodoList sampleList.File) = Except.ok sampleList) ∧
    formatRFC3339 ⟨1705276800, 0⟩ = some "2024-01-15T00:00:00Z".toList ∧
    formatRFC3339 ⟨1704067200, 500⟩ = some "2024-01-01T00:00:00.0000005Z".toList := by
  have hwf : ∀ x ∈ sampleList.Tasks, x.WellFormed := by
    unfold Task.WellFormed
    decide
  have h := SaveTasks_LoadTasks_roundtrip emptyDisk sampleList hwf
  obtain ⟨d1, hd1⟩ := h.1.mpr ⟨by decide, rfl⟩
  exact ⟨hwf, ⟨d1, hd1, h.2 d1 hd1 rfl⟩, by decide, by decide⟩

end TodoGolang
